import Mathlib

/-!
Verification of the ppyutil execution-locking subsystem (execlock.py,
contextman.py, signals.py) via a shallow embedding in Lean.

Python strings are modelled as lists of characters (`Line`), machine
integers as `Int`/`Nat`, external OS effects (process table, advisory
lock acquisition outcomes, stat results) as explicit oracle parameters,
and exceptions as `Option`/`Except` results.
-/

namespace PPyUtil

/-! ### Python text primitives (strings modelled as character lists) -/

/-- A Python string, modelled as a list of characters. -/
abbrev Line := List Char

/-- Value of a decimal digit character, `none` if not a decimal digit. -/
def digitVal (c : Char) : Option Nat :=
  if '0' ≤ c ∧ c ≤ '9' then some (c.toNat - ('0').toNat) else none

/-- Accumulating decimal parse of a digit string (most significant digit first). -/
def digitsToNatCore : Nat → List Char → Option Nat
  | a, [] => some a
  | a, c :: cs =>
    match digitVal c with
    | none => none
    | some d => digitsToNatCore (a * 10 + d) cs

/-- Parse a non-empty all-decimal-digits string to a natural number. -/
def digitsToNat (l : List Char) : Option Nat :=
  if l.isEmpty then none else digitsToNatCore 0 l

/-- Decimal rendering of a natural number, as produced by Python str(n). -/
def natChars (n : Nat) : List Char :=
  if n = 0 then ['0'] else ((Nat.digits 10 n).map Nat.digitChar).reverse

/-- Decimal rendering of an integer, as produced by Python str(i). -/
def intChars (i : Int) : List Char :=
  if i < 0 then '-' :: natChars (-i).toNat else natChars i.toNat

/-- Strip leading and trailing whitespace (Python str.strip, as done by int()). -/
def stripWs (l : Line) : Line :=
  ((l.dropWhile Char.isWhitespace).reverse.dropWhile Char.isWhitespace).reverse

/-- Sign-and-digits part of Python int(string) after whitespace stripping. -/
def pyIntCore : Line → Option Int
  | [] => none
  | c :: rest =>
    if c = '-' then (digitsToNat rest).map (fun n => -(n : Int))
    else if c = '+' then (digitsToNat rest).map (fun n => (n : Int))
    else (digitsToNat (c :: rest)).map (fun n => (n : Int))

/-- Python int(string) on decimal literals: optional surrounding whitespace,
optional sign, then decimal digits; `none` models ValueError.
(Underscore digit separators and non-ASCII digits are not modelled.) -/
def pyInt (s : Line) : Option Int := pyIntCore (stripWs s)

/-- ppyutil.string.ranged_int: int() parse followed by optional bound checks;
`none` models the raised ValueError. -/
def rangedInt (s : Line) (imin imax : Option Int) : Option Int :=
  (pyInt s).bind (fun v =>
    if imin.elim false (fun m => decide (v < m)) then none
    else if imax.elim false (fun m => decide (v > m)) then none
    else some v)

/-- Helper for `pySplit`: accumulate the current word (reversed) while
scanning; emit it at each whitespace boundary. -/
def pySplitAux : Line → Line → List Line
  | [], acc => if acc.isEmpty then [] else [acc.reverse]
  | c :: cs, acc =>
    if c.isWhitespace then
      if acc.isEmpty then pySplitAux cs [] else acc.reverse :: pySplitAux cs []
    else pySplitAux cs (c :: acc)

/-- Python str.split() with no arguments: split on runs of whitespace,
discarding empty words. -/
def pySplit (l : Line) : List Line := pySplitAux l []

/-! ### ProcessID (execlock.py) -/

/-- execlock.ProcessID: pid plus optional creation time in ms since the epoch. -/
structure ProcessID where
  pid : Int
  ctime : Option Int
deriving DecidableEq, Repr

/-- Python truthiness of the Optional[int] ctime field: falsy iff None or 0. -/
def ctimeFalsy : Option Int → Bool
  | none => true
  | some c => c == 0

/-- ProcessID.__eq__: pids equal and (ctimes equal or both ctimes falsy). -/
def pidEq (a b : ProcessID) : Bool :=
  a.pid == b.pid && (a.ctime == b.ctime || (ctimeFalsy a.ctime && ctimeFalsy b.ctime))

/-! ### ExecutionCLock ledger editing (execlock.ExecutionCLock._edit_lock_contents) -/

/-- Loop state of _edit_lock_contents: the retained lines, the retained
process identities, and the running minimum of max_count values. -/
structure EditState where
  newContents : List Line
  newProcesses : List ProcessID
  maxAllowed : Int
deriving Repr

/-- Parse one ledger line: split on whitespace, require exactly four parts,
parse them as pid (≥ 0), ctime (≥ 0), instance id, max_count (≥ 1);
`none` models the continue taken on malformed lines. -/
def parseLine (line : Line) : Option (ProcessID × Int × Int) :=
  match pySplit line with
  | [p0, p1, p2, p3] =>
    (rangedInt p0 (some 0) none).bind fun pid =>
    (rangedInt p1 (some 0) none).bind fun ct =>
    (pyInt p2).bind fun iid =>
    (rangedInt p3 (some 1) none).bind fun lmax =>
    some (⟨pid, some ct⟩, iid, lmax)
  | _ => none

/-- The liveness probe ProcessID.from_pid(line_id.pid) == line_id, where the
process table is the oracle `fromPid` (`none` models the OSError raised for a
dead pid, which the caller turns into discarding the line). -/
def aliveCheck (fromPid : Int → Option ProcessID) (lid : ProcessID) : Bool :=
  match fromPid lid.pid with
  | none => false
  | some p => pidEq p lid

/-- One iteration of the _edit_lock_contents loop over ledger lines. -/
def processLine (ourId : ProcessID) (ourIid : Int) (fromPid : Int → Option ProcessID)
    (enter forceClean : Bool) (st : EditState) (line : Line) : EditState :=
  match parseLine line with
  | none => st
  | some (lineId, lineIid, lineMax) =>
    if lineIid == ourIid && pidEq lineId ourId then st
    else if (enter || forceClean) && !(aliveCheck fromPid lineId) then st
    else
      { newContents := st.newContents ++ [line]
        newProcesses :=
          if st.newProcesses.any (fun q => pidEq q lineId) then st.newProcesses
          else st.newProcesses ++ [lineId]
        maxAllowed := if lineMax < st.maxAllowed then lineMax else st.maxAllowed }

/-- The instance identity string self._our_str:
"{pid} {0 if ctime is None else ctime} {iid}". -/
def ourStr (ourId : ProcessID) (ourIid : Int) : Line :=
  intChars ourId.pid ++ ' ' ::
    (intChars (ourId.ctime.getD 0) ++ ' ' :: intChars ourIid)

/-- The ledger line appended on acquisition: "{our_str} {max_count}\n". -/
def ourLine (ourId : ProcessID) (ourIid maxCount : Int) : Line :=
  ourStr ourId ourIid ++ ' ' :: (intChars maxCount ++ ['\n'])

/-- execlock.ExecutionCLock._edit_lock_contents: filter the ledger lines,
then append our own entry when entering below the effective cap.  Returns
(new_contents, new_processes, max_allowed, locked). -/
def edit_lock_contents (ourId : ProcessID) (ourIid maxCount : Int)
    (fromPid : Int → Option ProcessID) (contents : List Line)
    (enter forceClean : Bool) : List Line × List ProcessID × Int × Bool :=
  let st := contents.foldl (processLine ourId ourIid fromPid enter forceClean)
    ⟨[], [], maxCount⟩
  if enter ∧ (st.newContents.length : Int) < st.maxAllowed then
    (st.newContents ++ [ourLine ourId ourIid maxCount],
     (if st.newProcesses.any (fun q => pidEq q ourId) then st.newProcesses
      else st.newProcesses ++ [ourId]),
     st.maxAllowed, true)
  else
    (st.newContents, st.newProcesses, st.maxAllowed, false)

/-- Characterization of the lines the _edit_lock_contents loop retains:
well-formed, not our own previous entry, and (when entering or force
cleaning) belonging to a live process. -/
def keepLine (ourId : ProcessID) (ourIid : Int) (fromPid : Int → Option ProcessID)
    (enter forceClean : Bool) (line : Line) : Bool :=
  match parseLine line with
  | none => false
  | some (lineId, lineIid, _) =>
    !(lineIid == ourIid && pidEq lineId ourId) &&
      (!(enter || forceClean) || aliveCheck fromPid lineId)

/-- The max_count field of a ledger line, when the line is well-formed. -/
def lineMaxOf (line : Line) : Option Int :=
  (parseLine line).map (fun t => t.2.2)

/-- The ProcessID field of a ledger line, when the line is well-formed. -/
def lineIdOf (line : Line) : Option ProcessID :=
  (parseLine line).map (fun t => t.1)

/-! ### Decimal parse/render round trips -/

theorem digitVal_digitChar {d : Nat} (hd : d < 10) :
    digitVal (Nat.digitChar d) = some d := by
  interval_cases d <;> decide

theorem digitsToNatCore_append (a : Nat) (xs ys : List Char) :
    digitsToNatCore a (xs ++ ys)
      = (digitsToNatCore a xs).bind (fun b => digitsToNatCore b ys) := by
  induction xs generalizing a with
  | nil => rfl
  | cons c cs ih =>
    simp only [List.cons_append, digitsToNatCore]
    cases digitVal c with
    | none => rfl
    | some d => exact ih _

theorem digitsToNatCore_rev_digits :
    ∀ (ds : List Nat), (∀ d ∈ ds, d < 10) → ∀ a : Nat,
      digitsToNatCore a ((ds.map Nat.digitChar).reverse)
        = some (a * 10 ^ ds.length + Nat.ofDigits 10 ds) := by
  intro ds
  induction ds with
  | nil => intro _ a; simp [digitsToNatCore, Nat.ofDigits_nil]
  | cons d ds ih =>
    intro hlt a
    have hd : d < 10 := hlt d (List.mem_cons_self d ds)
    have hds : ∀ x ∈ ds, x < 10 := fun x hx => hlt x (List.mem_cons_of_mem d hx)
    simp only [List.map_cons, List.reverse_cons]
    rw [digitsToNatCore_append, ih hds a, Option.some_bind]
    simp only [digitsToNatCore, digitVal_digitChar hd]
    rw [Nat.ofDigits_cons, List.length_cons]
    congr 1
    ring

theorem digitsToNat_natChars (n : Nat) : digitsToNat (natChars n) = some n := by
  by_cases hn : n = 0
  · subst hn; decide
  · have hne : Nat.digits 10 n ≠ [] := by
      simpa [Nat.digits_ne_nil_iff_ne_zero] using hn
    have hlt : ∀ d ∈ Nat.digits 10 n, d < 10 :=
      fun d hd => Nat.digits_lt_base (by norm_num) hd
    have hrev : ((Nat.digits 10 n).map Nat.digitChar).reverse ≠ [] := by
      simp [hne]
    rw [natChars, if_neg hn, digitsToNat, if_neg (by simpa [List.isEmpty_iff] using hrev)]
    rw [digitsToNatCore_rev_digits _ hlt 0]
    simp [Nat.ofDigits_digits]

theorem natChars_ne_nil (n : Nat) : natChars n ≠ [] := by
  by_cases hn : n = 0
  · subst hn; decide
  · have hne : Nat.digits 10 n ≠ [] := by
      simpa [Nat.digits_ne_nil_iff_ne_zero] using hn
    simp [natChars, hn, hne]

theorem digitChar_props {d : Nat} (hd : d < 10) :
    (Nat.digitChar d).isWhitespace = false ∧
      Nat.digitChar d ≠ '-' ∧ Nat.digitChar d ≠ '+' := by
  interval_cases d <;> exact ⟨by decide, by decide, by decide⟩

theorem natChars_props (n : Nat) :
    ∀ c ∈ natChars n, c.isWhitespace = false ∧ c ≠ '-' ∧ c ≠ '+' := by
  intro c hc
  by_cases hn : n = 0
  · subst hn
    simp only [natChars, if_true, List.mem_singleton, reduceIte] at hc
    subst hc
    exact ⟨by decide, by decide, by decide⟩
  · rw [natChars, if_neg hn] at hc
    rw [List.mem_reverse, List.mem_map] at hc
    obtain ⟨d, hd, rfl⟩ := hc
    exact digitChar_props (Nat.digits_lt_base (by norm_num) hd)

theorem dropWhile_of_none {p : Char → Bool} :
    ∀ {l : Line}, (∀ c ∈ l, p c = false) → l.dropWhile p = l := by
  intro l h
  cases l with
  | nil => rfl
  | cons c cs => rw [List.dropWhile_cons_of_neg]; simp [h c (List.mem_cons_self c cs)]

theorem stripWs_of_none {l : Line} (h : ∀ c ∈ l, c.isWhitespace = false) :
    stripWs l = l := by
  rw [stripWs, dropWhile_of_none h, dropWhile_of_none, List.reverse_reverse]
  intro c hc
  exact h c (List.mem_reverse.mp hc)

theorem pyInt_natChars (n : Nat) : pyInt (natChars n) = some (n : Int) := by
  have hstrip : stripWs (natChars n) = natChars n :=
    stripWs_of_none (fun c hc => (natChars_props n c hc).1)
  rw [pyInt, hstrip]
  rcases hl : natChars n with _ | ⟨c, cs⟩
  · exact absurd hl (natChars_ne_nil n)
  · have hc := natChars_props n c (by rw [hl]; exact List.mem_cons_self c cs)
    rw [pyIntCore, if_neg hc.2.1, if_neg hc.2.2, ← hl, digitsToNat_natChars]
    rfl

theorem pyInt_intChars (i : Int) : pyInt (intChars i) = some i := by
  by_cases hi : i < 0
  · rw [intChars, if_pos hi, pyInt]
    have hprops := natChars_props (-i).toNat
    have hstrip : stripWs ('-' :: natChars (-i).toNat) = '-' :: natChars (-i).toNat := by
      apply stripWs_of_none
      intro c hc
      rcases List.mem_cons.mp hc with rfl | hc
      · decide
      · exact (hprops c hc).1
    rw [hstrip, pyIntCore, if_pos rfl]
    have hd : digitsToNat (natChars (-i).toNat) = some (-i).toNat := digitsToNat_natChars _
    rw [hd]
    have h2 : ((-i).toNat : Int) = -i := Int.toNat_of_nonneg (by omega)
    show some (-(((-i).toNat : Nat) : Int)) = some i
    rw [h2, neg_neg]
  · rw [intChars, if_neg hi]
    rw [pyInt_natChars i.toNat]
    congr 1
    exact Int.toNat_of_nonneg (by omega)

theorem rangedInt_intChars_min {v lo : Int} (h : lo ≤ v) :
    rangedInt (intChars v) (some lo) none = some v := by
  rw [rangedInt, pyInt_intChars]
  simp [not_lt.mpr h]

/-! ### pySplit on well-formed four-field lines -/

theorem pySplitAux_word :
    ∀ (w : Line), (∀ c ∈ w, c.isWhitespace = false) → ∀ (rest acc : Line),
      pySplitAux (w ++ rest) acc = pySplitAux rest (w.reverse ++ acc) := by
  intro w
  induction w with
  | nil => intro _ rest acc; simp
  | cons c cs ih =>
    intro h rest acc
    have hc : c.isWhitespace = false := h c (List.mem_cons_self c cs)
    have hcs : ∀ x ∈ cs, x.isWhitespace = false :=
      fun x hx => h x (List.mem_cons_of_mem c hx)
    simp only [List.cons_append, pySplitAux, hc, Bool.false_eq_true, if_false]
    refine (ih hcs rest (c :: acc)).trans ?_
    congr 1
    simp

theorem pySplit_cons_word {w : Line} (hne : w ≠ [])
    (hws : ∀ c ∈ w, c.isWhitespace = false) (t : Line) :
    pySplit (w ++ ' ' :: t) = w :: pySplit t := by
  rw [pySplit, pySplitAux_word w hws, List.append_nil]
  have hacc : (w.reverse).isEmpty = false := by
    simp [List.isEmpty_iff, hne]
  simp only [pySplitAux, Char.isWhitespace, hacc]
  norm_num [pySplit]

theorem pySplit_end_word {w : Line} (hne : w ≠ [])
    (hws : ∀ c ∈ w, c.isWhitespace = false) :
    pySplit (w ++ ['\n']) = [w] := by
  rw [pySplit, pySplitAux_word w hws, List.append_nil]
  have hacc : (w.reverse).isEmpty = false := by
    simp [List.isEmpty_iff, hne]
  simp only [pySplitAux, Char.isWhitespace, hacc]
  norm_num

theorem pySplit_four {w1 w2 w3 w4 : Line}
    (h1 : w1 ≠ []) (g1 : ∀ c ∈ w1, c.isWhitespace = false)
    (h2 : w2 ≠ []) (g2 : ∀ c ∈ w2, c.isWhitespace = false)
    (h3 : w3 ≠ []) (g3 : ∀ c ∈ w3, c.isWhitespace = false)
    (h4 : w4 ≠ []) (g4 : ∀ c ∈ w4, c.isWhitespace = false) :
    pySplit (w1 ++ ' ' :: (w2 ++ ' ' :: (w3 ++ ' ' :: (w4 ++ ['\n']))))
      = [w1, w2, w3, w4] := by
  rw [pySplit_cons_word h1 g1, pySplit_cons_word h2 g2, pySplit_cons_word h3 g3,
    pySplit_end_word h4 g4]

theorem intChars_ne_nil (i : Int) : intChars i ≠ [] := by
  rw [intChars]
  split
  · exact List.cons_ne_nil _ _
  · exact natChars_ne_nil _

theorem intChars_not_ws (i : Int) : ∀ c ∈ intChars i, c.isWhitespace = false := by
  intro c hc
  rw [intChars] at hc
  by_cases hi : i < 0
  · rw [if_pos hi] at hc
    rcases List.mem_cons.mp hc with rfl | hc
    · decide
    · exact (natChars_props _ c hc).1
  · rw [if_neg hi] at hc
    exact (natChars_props _ c hc).1

/-- The appended ledger line round-trips through the line parser. -/
theorem parseLine_ourLine (o : ProcessID) (iid m : Int)
    (hpid : 0 ≤ o.pid) (hct : 0 ≤ o.ctime.getD 0) (hm : 1 ≤ m) :
    parseLine (ourLine o iid m) = some (⟨o.pid, some (o.ctime.getD 0)⟩, iid, m) := by
  have hshape : ourLine o iid m
      = intChars o.pid ++ ' ' :: (intChars (o.ctime.getD 0)
        ++ ' ' :: (intChars iid ++ ' ' :: (intChars m ++ ['\n']))) := by
    simp [ourLine, ourStr]
  have hsplit : pySplit (ourLine o iid m)
      = [intChars o.pid, intChars (o.ctime.getD 0), intChars iid, intChars m] := by
    rw [hshape]
    exact pySplit_four (intChars_ne_nil _) (intChars_not_ws _) (intChars_ne_nil _)
      (intChars_not_ws _) (intChars_ne_nil _) (intChars_not_ws _)
      (intChars_ne_nil _) (intChars_not_ws _)
  rw [parseLine, hsplit]
  simp only [rangedInt_intChars_min hpid, rangedInt_intChars_min hct,
    rangedInt_intChars_min hm, pyInt_intChars, Option.some_bind]

/-- The max_count field of the appended ledger line. -/
theorem lineMaxOf_ourLine (o : ProcessID) (iid m : Int)
    (hpid : 0 ≤ o.pid) (hct : 0 ≤ o.ctime.getD 0) (hm : 1 ≤ m) :
    lineMaxOf (ourLine o iid m) = some m := by
  rw [lineMaxOf, parseLine_ourLine o iid m hpid hct hm]
  rfl

/-! ### Characterizing the _edit_lock_contents fold -/

/-- The running-minimum step over one retained line's max_count. -/
def lineMin (m : Int) (line : Line) : Int :=
  match lineMaxOf line with
  | some x => if x < m then x else m
  | none => m

theorem processLine_newContents (o : ProcessID) (i : Int)
    (f : Int → Option ProcessID) (e fc : Bool) (st : EditState) (a : Line) :
    (processLine o i f e fc st a).newContents
      = st.newContents ++ (if keepLine o i f e fc a then [a] else []) := by
  cases hp : parseLine a with
  | none => simp [processLine, keepLine, hp]
  | some t =>
    obtain ⟨lid, liid, lmax⟩ := t
    cases h1 : (liid == i && pidEq lid o) with
    | true => simp [processLine, keepLine, hp, h1]
    | false =>
      cases h2 : ((e || fc) && !aliveCheck f lid) with
      | true =>
        have ha : aliveCheck f lid = false := by
          revert h2; cases aliveCheck f lid <;> simp
        have hef : (e || fc) = true := by
          revert h2; cases (e || fc) <;> simp
        have hk : keepLine o i f e fc a = false := by
          simp [keepLine, hp, hef, ha]
        simp [processLine, hp, h1, h2, hk]
      | false =>
        have hk : keepLine o i f e fc a = true := by
          simp only [keepLine, hp]
          cases hef : (e || fc)
          · simp [h1]
          · have ha : aliveCheck f lid = true := by
              rw [hef] at h2; revert h2; cases aliveCheck f lid <;> simp
            simp [h1, ha]
        simp [processLine, hp, h1, h2, hk]

theorem processLine_maxAllowed (o : ProcessID) (i : Int)
    (f : Int → Option ProcessID) (e fc : Bool) (st : EditState) (a : Line) :
    (processLine o i f e fc st a).maxAllowed
      = if keepLine o i f e fc a then lineMin st.maxAllowed a else st.maxAllowed := by
  cases hp : parseLine a with
  | none => simp [processLine, keepLine, hp]
  | some t =>
    obtain ⟨lid, liid, lmax⟩ := t
    have hmax : lineMaxOf a = some lmax := by rw [lineMaxOf, hp]; rfl
    cases h1 : (liid == i && pidEq lid o) with
    | true => simp [processLine, keepLine, hp, h1]
    | false =>
      cases h2 : ((e || fc) && !aliveCheck f lid) with
      | true =>
        have ha : aliveCheck f lid = false := by
          revert h2; cases aliveCheck f lid <;> simp
        have hef : (e || fc) = true := by
          revert h2; cases (e || fc) <;> simp
        have hk : keepLine o i f e fc a = false := by
          simp [keepLine, hp, hef, ha]
        simp [processLine, hp, h1, h2, hk]
      | false =>
        have hk : keepLine o i f e fc a = true := by
          simp only [keepLine, hp]
          cases hef : (e || fc)
          · simp [h1]
          · have ha : aliveCheck f lid = true := by
              rw [hef] at h2; revert h2; cases aliveCheck f lid <;> simp
            simp [h1, ha]
        simp [processLine, lineMin, hp, hmax, h1, h2, hk]

theorem foldl_processLine_fields (o : ProcessID) (i : Int)
    (f : Int → Option ProcessID) (e fc : Bool) :
    ∀ (l : List Line) (st : EditState),
      (List.foldl (processLine o i f e fc) st l).newContents
          = st.newContents ++ l.filter (keepLine o i f e fc) ∧
      (List.foldl (processLine o i f e fc) st l).maxAllowed
          = List.foldl lineMin st.maxAllowed (l.filter (keepLine o i f e fc)) := by
  intro l
  induction l with
  | nil => intro st; simp
  | cons a l ih =>
    intro st
    rw [List.foldl_cons, List.filter_cons]
    rcases ih (processLine o i f e fc st a) with ⟨ihc, ihm⟩
    constructor
    · rw [ihc, processLine_newContents]
      by_cases hk : keepLine o i f e fc a = true <;> simp [hk]
    · rw [ihm, processLine_maxAllowed]
      by_cases hk : keepLine o i f e fc a = true <;> simp [hk]

theorem lineMin_le (m : Int) (a : Line) : lineMin m a ≤ m := by
  rw [lineMin]
  cases lineMaxOf a with
  | none => exact le_refl m
  | some x => dsimp only; split <;> omega

theorem foldl_lineMin_le_init :
    ∀ (L : List Line) (m : Int), List.foldl lineMin m L ≤ m := by
  intro L
  induction L with
  | nil => intro m; exact le_refl m
  | cons a L ih =>
    intro m
    rw [List.foldl_cons]
    exact le_trans (ih (lineMin m a)) (lineMin_le m a)

theorem foldl_lineMin_le_mem :
    ∀ (L : List Line) (m : Int) (line : Line), line ∈ L →
      ∀ x, lineMaxOf line = some x → List.foldl lineMin m L ≤ x := by
  intro L
  induction L with
  | nil => intro m line h; exact absurd h (List.not_mem_nil line)
  | cons a L ih =>
    intro m line hmem x hx
    rw [List.foldl_cons]
    rcases List.mem_cons.mp hmem with rfl | hmem
    · refine le_trans (foldl_lineMin_le_init L (lineMin m line)) ?_
      rw [lineMin, hx]
      dsimp only
      split <;> omega
    · exact ih (lineMin m a) line hmem x hx

theorem foldl_lineMin_eq_min :
    ∀ (L : List Line), (∀ line ∈ L, (lineMaxOf line).isSome) → ∀ (m : Int),
      List.foldl lineMin m L = List.foldl min m (L.filterMap lineMaxOf) := by
  intro L
  induction L with
  | nil => intro _ m; rfl
  | cons a L ih =>
    intro h m
    obtain ⟨x, hx⟩ := Option.isSome_iff_exists.mp (h a (List.mem_cons_self a L))
    have hL : ∀ line ∈ L, (lineMaxOf line).isSome :=
      fun line hl => h line (List.mem_cons_of_mem a hl)
    rw [List.foldl_cons, List.filterMap_cons_some hx, List.foldl_cons,
      ih hL (lineMin m a)]
    congr 1
    rw [lineMin, hx]
    dsimp only
    rw [min_def]
    split <;> split <;> omega

theorem keepLine_lineMaxOf_isSome {o : ProcessID} {i : Int}
    {f : Int → Option ProcessID} {e fc : Bool} {line : Line}
    (h : keepLine o i f e fc line = true) : (lineMaxOf line).isSome := by
  cases hp : parseLine line with
  | none => rw [keepLine, hp] at h; exact absurd h (by simp)
  | some t => rw [lineMaxOf, hp]; rfl

theorem edit_maxAllowed_eq (o : ProcessID) (i mc : Int) (f : Int → Option ProcessID)
    (l : List Line) (e fc : Bool) :
    (edit_lock_contents o i mc f l e fc).2.2.1
      = List.foldl lineMin mc (l.filter (keepLine o i f e fc)) := by
  obtain ⟨hc, hm⟩ := foldl_processLine_fields o i f e fc l ⟨[], [], mc⟩
  rw [edit_lock_contents]
  split <;> simpa using hm

theorem edit_locked_iff (o : ProcessID) (i mc : Int) (f : Int → Option ProcessID)
    (l : List Line) (e fc : Bool) :
    (edit_lock_contents o i mc f l e fc).2.2.2 = true
      ↔ (e = true ∧ ((l.filter (keepLine o i f e fc)).length : Int)
            < List.foldl lineMin mc (l.filter (keepLine o i f e fc))) := by
  obtain ⟨hc0, hm0⟩ := foldl_processLine_fields o i f e fc l ⟨[], [], mc⟩
  have hc : (List.foldl (processLine o i f e fc) ⟨[], [], mc⟩ l).newContents
      = List.filter (keepLine o i f e fc) l := by simpa using hc0
  have hm : (List.foldl (processLine o i f e fc) ⟨[], [], mc⟩ l).maxAllowed
      = List.foldl lineMin mc (List.filter (keepLine o i f e fc) l) := hm0
  rw [edit_lock_contents]
  split
  next h =>
    rw [hc, hm] at h
    obtain ⟨he, hlt⟩ := h
    subst he
    simp [hlt]
  next h =>
    rw [hc, hm] at h
    constructor
    · intro hfalse; exact absurd hfalse (by simp)
    · intro hcon; exact absurd hcon h

theorem edit_contents_eq (o : ProcessID) (i mc : Int) (f : Int → Option ProcessID)
    (l : List Line) (e fc : Bool) :
    (edit_lock_contents o i mc f l e fc).1
      = l.filter (keepLine o i f e fc)
        ++ (if (edit_lock_contents o i mc f l e fc).2.2.2
            then [ourLine o i mc] else []) := by
  obtain ⟨hc, hm⟩ := foldl_processLine_fields o i f e fc l ⟨[], [], mc⟩
  simp only [List.nil_append] at hc
  rw [edit_lock_contents]
  split <;> simp [hc]

/-- C1: on enter, our entry is appended and the lock logically acquired iff the
number of retained lines is strictly below the minimum of all retained lines'
max_count values and our own max_count; consequently, whenever the enter
succeeds, the rewritten ledger's length never exceeds any entry's max_count. -/
theorem clock_enter_respects_cap (ourId : ProcessID) (ourIid maxCount : Int)
    (fromPid : Int → Option ProcessID) (contents : List Line)
    (hmax : 1 ≤ maxCount) (hpid : 0 ≤ ourId.pid) (hct : 0 ≤ ourId.ctime.getD 0) :
    (((edit_lock_contents ourId ourIid maxCount fromPid contents true false).2.2.2 = true)
      ↔ (((contents.filter (keepLine ourId ourIid fromPid true false)).length : Int)
          < List.foldl min maxCount
              ((contents.filter (keepLine ourId ourIid fromPid true false)).filterMap lineMaxOf))) ∧
    ((edit_lock_contents ourId ourIid maxCount fromPid contents true false).1
      = contents.filter (keepLine ourId ourIid fromPid true false)
        ++ (if (edit_lock_contents ourId ourIid maxCount fromPid contents true false).2.2.2
            then [ourLine ourId ourIid maxCount] else [])) ∧
    ((edit_lock_contents ourId ourIid maxCount fromPid contents true false).2.2.2 = true →
      ∀ line ∈ (edit_lock_contents ourId ourIid maxCount fromPid contents true false).1,
        ∃ m, lineMaxOf line = some m ∧
          (((edit_lock_contents ourId ourIid maxCount fromPid contents true false).1.length : Int) ≤ m)) := by
  have hsome : ∀ line ∈ contents.filter (keepLine ourId ourIid fromPid true false),
      (lineMaxOf line).isSome :=
    fun line hl => keepLine_lineMaxOf_isSome (List.mem_filter.mp hl).2
  have hcap : List.foldl lineMin maxCount
        (contents.filter (keepLine ourId ourIid fromPid true false))
      = List.foldl min maxCount
        ((contents.filter (keepLine ourId ourIid fromPid true false)).filterMap lineMaxOf) :=
    foldl_lineMin_eq_min _ hsome maxCount
  refine ⟨?_, edit_contents_eq ourId ourIid maxCount fromPid contents true false, ?_⟩
  · rw [edit_locked_iff, ← hcap]
    simp
  · intro hlock line hline
    have hiff := (edit_locked_iff ourId ourIid maxCount fromPid contents true false).mp hlock
    have hlen := edit_contents_eq ourId ourIid maxCount fromPid contents true false
    rw [hlock] at hlen
    simp only [if_true] at hlen
    rw [hlen] at hline
    rw [hlen, List.length_append, List.length_singleton]
    have hcount : ((contents.filter (keepLine ourId ourIid fromPid true false)).length + 1 : Int)
        ≤ List.foldl lineMin maxCount (contents.filter (keepLine ourId ourIid fromPid true false)) := by
      have := hiff.2
      omega
    rcases List.mem_append.mp hline with hmem | hmem
    · obtain ⟨v, hv⟩ := Option.isSome_iff_exists.mp (hsome line hmem)
      refine ⟨v, hv, ?_⟩
      have hle := foldl_lineMin_le_mem _ maxCount line hmem v hv
      push_cast
      omega
    · rw [List.mem_singleton] at hmem
      subst hmem
      refine ⟨maxCount, lineMaxOf_ourLine ourId ourIid maxCount hpid hct hmax, ?_⟩
      have hle := foldl_lineMin_le_init
        (contents.filter (keepLine ourId ourIid fromPid true false)) maxCount
      push_cast
      omega

/-- Witness for C1 at a concrete instance. -/
theorem clock_enter_respects_cap_witness :
    (1 : Int) ≤ 2 ∧ (0 : Int) ≤ (⟨7, some 123⟩ : ProcessID).pid ∧
    (0 : Int) ≤ ((⟨7, some 123⟩ : ProcessID) : ProcessID).ctime.getD 0 ∧
    ((((edit_lock_contents ⟨7, some 123⟩ 55 2 (fun _ => none) [] true false).2.2.2 = true)
      ↔ ((([] : List Line).filter (keepLine ⟨7, some 123⟩ 55 (fun _ => none) true false)).length : Int)
          < List.foldl min 2
              ((([] : List Line).filter (keepLine ⟨7, some 123⟩ 55 (fun _ => none) true false)).filterMap lineMaxOf)) ∧
    ((edit_lock_contents ⟨7, some 123⟩ 55 2 (fun _ => none) [] true false).1
      = ([] : List Line).filter (keepLine ⟨7, some 123⟩ 55 (fun _ => none) true false)
        ++ (if (edit_lock_contents ⟨7, some 123⟩ 55 2 (fun _ => none) [] true false).2.2.2
            then [ourLine ⟨7, some 123⟩ 55 2] else [])) ∧
    ((edit_lock_contents ⟨7, some 123⟩ 55 2 (fun _ => none) [] true false).2.2.2 = true →
      ∀ line ∈ (edit_lock_contents ⟨7, some 123⟩ 55 2 (fun _ => none) [] true false).1,
        ∃ m, lineMaxOf line = some m ∧
          (((edit_lock_contents ⟨7, some 123⟩ 55 2 (fun _ => none) [] true false).1.length : Int) ≤ m))) :=
  ⟨by norm_num, by norm_num, by norm_num,
    clock_enter_respects_cap ⟨7, some 123⟩ 55 2 (fun _ => none) []
      (by norm_num) (by norm_num) (by norm_num)⟩

/-! ### C4: ProcessID equality semantics -/

/-- The equality relation as worded by the spec: pids match and either both
have a ctime and the ctimes match, or at least one side is missing its ctime. -/
def specProcessIdEq (a b : ProcessID) : Bool :=
  a.pid == b.pid &&
    ((a.ctime.isSome && b.ctime.isSome && a.ctime == b.ctime)
      || a.ctime.isNone || b.ctime.isNone)

/-- C4 counterexample: with pids equal, one ctime missing and the other
present, the spec's wording declares the identities equal but
ProcessID.__eq__ returns False. -/
theorem processid_eq_counterexample :
    specProcessIdEq ⟨1, none⟩ ⟨1, some 5⟩ = true ∧
    pidEq ⟨1, none⟩ ⟨1, some 5⟩ = false := by
  constructor <;> rfl

/-- C4 amended: two ProcessID values compare equal iff the pids match and
either the ctime fields are equal or both ctimes are missing, where a
missing ctime is one that is None or 0 (Python falsy). -/
theorem processid_eq_characterization (a b : ProcessID) :
    pidEq a b = true
      ↔ (a.pid = b.pid ∧
          (a.ctime = b.ctime ∨
            ((a.ctime = none ∨ a.ctime = some 0) ∧
             (b.ctime = none ∨ b.ctime = some 0)))) := by
  obtain ⟨ap, ac⟩ := a
  obtain ⟨bp, bc⟩ := b
  cases ac <;> cases bc <;> simp [pidEq, ctimeFalsy]

/-! ### C6: stale-line pruning -/

/-- C6 counterexample: a well-formed line of a dead process (the process
table reports no process for pid 99) is NOT removed by the exit rewrite
(enter = False, force_clean = False): the exit of a peer does not prune
stale entries, contrary to the claim. -/
theorem clock_exit_stale_counterexample :
    aliveCheck (fun _ => none) ⟨99, some 0⟩ = false ∧
    parseLine (("99 0 1 3\n").toList) = some (⟨99, some 0⟩, 1, 3) ∧
    (edit_lock_contents ⟨1, some 2⟩ 5 3 (fun _ => none)
        [("99 0 1 3\n").toList] false false).1
      = [("99 0 1 3\n").toList] := by
  refine ⟨rfl, by decide, by decide⟩

/-- C6 amended: ledger lines of dead processes are purged by any rewrite
performed with enter = True (every peer's enter) or force_clean = True
(status reads); every line that such a rewrite retains is either the freshly
appended own entry or belongs to a live process. -/
theorem clock_stale_pruned_on_enter (o : ProcessID) (i mc : Int)
    (f : Int → Option ProcessID) (l : List Line) (e fc : Bool)
    (h : e = true ∨ fc = true) :
    ∀ line ∈ (edit_lock_contents o i mc f l e fc).1,
      line = ourLine o i mc ∨
        (∃ lid, lineIdOf line = some lid ∧ aliveCheck f lid = true) := by
  intro line hline
  rw [edit_contents_eq] at hline
  rcases List.mem_append.mp hline with hmem | hmem
  · right
    have hk := (List.mem_filter.mp hmem).2
    cases hp : parseLine line with
    | none => rw [keepLine, hp] at hk; exact absurd hk (by simp)
    | some t =>
      obtain ⟨lid, liid, lmax⟩ := t
      refine ⟨lid, by rw [lineIdOf, hp]; rfl, ?_⟩
      have hef : (e || fc) = true := by
        rcases h with h | h <;> simp [h]
      simp only [keepLine, hp, hef] at hk
      cases hal : aliveCheck f lid
      · rw [hal] at hk
        simp at hk
      · rfl
  · left
    split at hmem
    · exact (List.mem_singleton.mp hmem)
    · exact absurd hmem (List.not_mem_nil line)

/-- Witness for the amended C6 theorem at a concrete instance. -/
theorem clock_stale_pruned_on_enter_witness :
    (true = true ∨ false = true) ∧
    (∀ line ∈ (edit_lock_contents ⟨1, some 2⟩ 5 3
        (fun p => if p = 99 then some ⟨99, some 7⟩ else none)
        [("99 7 1 3\n").toList] true false).1,
      line = ourLine ⟨1, some 2⟩ 5 3 ∨
        (∃ lid, lineIdOf line = some lid ∧
          aliveCheck (fun p => if p = 99 then some ⟨99, some 7⟩ else none) lid = true)) :=
  ⟨Or.inl rfl,
    clock_stale_pruned_on_enter ⟨1, some 2⟩ 5 3
      (fun p => if p = 99 then some ⟨99, some 7⟩ else none)
      [("99 7 1 3\n").toList] true false (Or.inl rfl)⟩

/-! ### Reentrancy harness (contextman.ReentrantMeta wrappers)

The wrappers are generic over the wrapped context manager: `σ` is its
state, `ρ` the value its real __enter__ returns; `re` models the wrapped
real __enter__ (returning result and new state) and `rx` the wrapped real
__exit__ (returning the suppress flag and new state). -/

/-- Per-instance fields installed by ReentrantMeta init_wrapper. -/
structure ReState (σ ρ : Type) where
  enterCount : Int
  enterResult : Option ρ
  entering : Bool
  exiting : Bool
  inner : σ

/-- contextman.ReentrantMeta init_wrapper: zero count, no stored result. -/
def init_wrapper (s0 : σ) : ReState σ ρ :=
  ⟨0, none, false, false, s0⟩

/-- contextman.ReentrantMeta enter_wrapper: set the entering flag, increment
the count, run the real enter only when the count becomes 1, return the
stored result.  The last component reports whether the real enter ran. -/
def enter_wrapper (re : σ → ρ × σ) (s : ReState σ ρ) : Option ρ × ReState σ ρ × Bool :=
  let count := s.enterCount + 1
  if count = 1 then
    let r := re s.inner
    (some r.1,
     { s with enterCount := count, enterResult := some r.1, entering := false, inner := r.2 },
     true)
  else
    (s.enterResult, { s with enterCount := count, entering := false }, false)

/-- contextman.ReentrantMeta exit_wrapper: raise AssertionError when the
count is below 1, run the real exit only when the count is exactly 1, then
decrement.  The last component reports whether the real exit ran. -/
def exit_wrapper (rx : σ → Bool × σ) (s : ReState σ ρ) : Except Unit Bool × ReState σ ρ × Bool :=
  if s.enterCount < 1 then
    (Except.error (), { s with exiting := false }, false)
  else if s.enterCount = 1 then
    let r := rx s.inner
    (Except.ok r.1,
     { s with enterCount := s.enterCount - 1, enterResult := none, exiting := false, inner := r.2 },
     true)
  else
    (Except.ok false, { s with enterCount := s.enterCount - 1, exiting := false }, false)

/-- N successive enter_wrapper calls: final state, the list of returned
results, and how many times the real enter ran. -/
def enterN (re : σ → ρ × σ) : Nat → ReState σ ρ → ReState σ ρ × List (Option ρ) × Nat
  | 0, s => (s, [], 0)
  | n + 1, s =>
    let r := enter_wrapper re s
    let t := enterN re n r.2.1
    (t.1, r.1 :: t.2.1, (if r.2.2 then 1 else 0) + t.2.2)

/-- N successive exit_wrapper calls: final state and how many times the
real exit ran. -/
def exitN (rx : σ → Bool × σ) : Nat → ReState σ ρ → ReState σ ρ × Nat
  | 0, s => (s, 0)
  | n + 1, s =>
    let r := exit_wrapper rx s
    let t := exitN rx n r.2.1
    (t.1, (if r.2.2 then 1 else 0) + t.2)

theorem enterN_steady (re : σ → ρ × σ) :
    ∀ (n : Nat) (ec : Int) (er : Option ρ) (ex : Bool) (inn : σ), 1 ≤ ec →
      enterN re n (⟨ec, er, false, ex, inn⟩ : ReState σ ρ)
        = (⟨ec + n, er, false, ex, inn⟩, List.replicate n er, 0) := by
  intro n
  induction n with
  | zero =>
    intro ec er ex inn _
    simp [enterN]
  | succ n ih =>
    intro ec er ex inn hcount
    have hne : ¬(ec + 1 = 1) := by omega
    simp only [enterN, enter_wrapper, hne, if_false]
    rw [ih (ec + 1) er ex inn (by omega)]
    have harith : ec + 1 + (n : Int) = ec + ((n + 1 : Nat) : Int) := by push_cast; ring
    rw [harith]
    simp [List.replicate_succ]

theorem exitN_full (rx : σ → Bool × σ) :
    ∀ (n : Nat) (ec : Int) (er : Option ρ) (inn : σ), ec = (n : Int) + 1 →
      exitN rx (n + 1) (⟨ec, er, false, false, inn⟩ : ReState σ ρ)
        = (⟨0, none, false, false, (rx inn).2⟩, 1) := by
  intro n
  induction n with
  | zero =>
    intro ec er inn hcount
    subst hcount
    simp [exitN, exit_wrapper]
  | succ n ih =>
    intro ec er inn hcount
    have h1 : ¬(ec < 1) := by omega
    have h2 : ¬(ec = 1) := by omega
    have hstep : exit_wrapper rx (⟨ec, er, false, false, inn⟩ : ReState σ ρ)
        = (Except.ok false, ⟨ec - 1, er, false, false, inn⟩, false) := by
      simp [exit_wrapper, h1, h2]
    rw [exitN]
    simp only [hstep]
    rw [ih (ec - 1) er inn (by push_cast at hcount ⊢; omega)]
    simp

/-- C7: for any lock built on the reentrancy harness, N nested enters
followed by N exits perform exactly one real acquire and one real release,
every enter returns the first enter's result, and the harness state returns
to zero count and empty stored result with the inner state transformed by
exactly one acquire-release pair. -/
theorem reentrant_enter_exit_balanced {σ ρ : Type} (re : σ → ρ × σ)
    (rx : σ → Bool × σ) (s0 : σ) (N : Nat) (hN : 1 ≤ N) :
    (enterN re N (init_wrapper s0 : ReState σ ρ)).2.2 = 1 ∧
    (enterN re N (init_wrapper s0 : ReState σ ρ)).2.1
      = List.replicate N (some (re s0).1) ∧
    (exitN rx N (enterN re N (init_wrapper s0 : ReState σ ρ)).1).2 = 1 ∧
    (exitN rx N (enterN re N (init_wrapper s0 : ReState σ ρ)).1).1.enterCount = 0 ∧
    (exitN rx N (enterN re N (init_wrapper s0 : ReState σ ρ)).1).1.enterResult = none ∧
    (exitN rx N (enterN re N (init_wrapper s0 : ReState σ ρ)).1).1.inner
      = (rx (re s0).2).2 := by
  obtain ⟨m, rfl⟩ : ∃ m, N = m + 1 := ⟨N - 1, by omega⟩
  have hfirst : enter_wrapper re (init_wrapper s0 : ReState σ ρ)
      = (some (re s0).1, ⟨1, some (re s0).1, false, false, (re s0).2⟩, true) := by
    simp [enter_wrapper, init_wrapper]
  have henter : enterN re (m + 1) (init_wrapper s0 : ReState σ ρ)
      = (⟨1 + (m : Int), some (re s0).1, false, false, (re s0).2⟩,
         List.replicate (m + 1) (some (re s0).1), 1) := by
    rw [enterN]
    simp only [hfirst]
    rw [enterN_steady re m 1 (some (re s0).1) false ((re s0).2) (by norm_num)]
    simp [List.replicate_succ]
  rw [henter]
  have hexit := exitN_full rx m (1 + (m : Int)) (some (re s0).1) ((re s0).2)
    (by ring)
  rw [hexit]
  simp

/-- Witness for C7 at a concrete instance (N = 3 nested enters/exits). -/
theorem reentrant_enter_exit_balanced_witness :
    1 ≤ 3 ∧
    ((enterN (fun n : Nat => (n, n + 1)) 3 (init_wrapper 0 : ReState Nat Nat)).2.2 = 1 ∧
     (enterN (fun n : Nat => (n, n + 1)) 3 (init_wrapper 0 : ReState Nat Nat)).2.1
       = List.replicate 3 (some ((fun n : Nat => (n, n + 1)) 0).1) ∧
     (exitN (fun n : Nat => (false, n + 100)) 3
        (enterN (fun n : Nat => (n, n + 1)) 3 (init_wrapper 0 : ReState Nat Nat)).1).2 = 1 ∧
     (exitN (fun n : Nat => (false, n + 100)) 3
        (enterN (fun n : Nat => (n, n + 1)) 3 (init_wrapper 0 : ReState Nat Nat)).1).1.enterCount = 0 ∧
     (exitN (fun n : Nat => (false, n + 100)) 3
        (enterN (fun n : Nat => (n, n + 1)) 3 (init_wrapper 0 : ReState Nat Nat)).1).1.enterResult = none ∧
     (exitN (fun n : Nat => (false, n + 100)) 3
        (enterN (fun n : Nat => (n, n + 1)) 3 (init_wrapper 0 : ReState Nat Nat)).1).1.inner
       = ((fun n : Nat => (false, n + 100)) ((fun n : Nat => (n, n + 1)) 0).2).2) :=
  ⟨by norm_num,
   reentrant_enter_exit_balanced (fun n : Nat => (n, n + 1))
     (fun n : Nat => (false, n + 100)) 0 3 (by norm_num)⟩

/-- C10: calling exit_wrapper with a non-positive enter count raises
AssertionError, performs no real release, and leaves the count unchanged;
consequently a count that starts non-negative can never become negative. -/
theorem reentrant_exit_unbalanced {σ ρ : Type} (rx : σ → Bool × σ)
    (s : ReState σ ρ) (h : s.enterCount ≤ 0) :
    (exit_wrapper rx s).1 = Except.error () ∧
    (exit_wrapper rx s).2.1.enterCount = s.enterCount ∧
    (exit_wrapper rx s).2.1.inner = s.inner ∧
    (exit_wrapper rx s).2.2 = false ∧
    (∀ t : ReState σ ρ, 0 ≤ t.enterCount →
      0 ≤ (exit_wrapper rx t).2.1.enterCount) := by
  have hlt : s.enterCount < 1 := by omega
  refine ⟨?_, ?_, ?_, ?_, ?_⟩
  · simp [exit_wrapper, hlt]
  · simp [exit_wrapper, hlt]
  · simp [exit_wrapper, hlt]
  · simp [exit_wrapper, hlt]
  · intro t ht
    rw [exit_wrapper]
    split
    · simpa using ht
    · split <;> simp <;> omega

/-- Witness for C10 at a concrete instance. -/
theorem reentrant_exit_unbalanced_witness :
    ((⟨0, none, false, false, 42⟩ : ReState Nat Nat).enterCount ≤ 0) ∧
    ((exit_wrapper (fun n : Nat => (false, n)) (⟨0, none, false, false, 42⟩ : ReState Nat Nat)).1
        = Except.error () ∧
     (exit_wrapper (fun n : Nat => (false, n)) (⟨0, none, false, false, 42⟩ : ReState Nat Nat)).2.1.enterCount
        = (⟨0, none, false, false, 42⟩ : ReState Nat Nat).enterCount ∧
     (exit_wrapper (fun n : Nat => (false, n)) (⟨0, none, false, false, 42⟩ : ReState Nat Nat)).2.1.inner
        = (⟨0, none, false, false, 42⟩ : ReState Nat Nat).inner ∧
     (exit_wrapper (fun n : Nat => (false, n)) (⟨0, none, false, false, 42⟩ : ReState Nat Nat)).2.2 = false ∧
     (∀ t : ReState Nat Nat, 0 ≤ t.enterCount →
       0 ≤ (exit_wrapper (fun n : Nat => (false, n)) t).2.1.enterCount)) :=
  ⟨by norm_num,
   reentrant_exit_unbalanced (fun n : Nat => (false, n))
     (⟨0, none, false, false, 42⟩ : ReState Nat Nat) (by norm_num)⟩

/-! ### C2: ExecutionLock.__enter__ stolen-lock recovery

The OS is an oracle supplying the outcome of every acquisition attempt of
the advisory lock: either portalocker times out, or the lock is acquired
and the two stat calls yield the given inode numbers (`none` models an
OSError suppressed by the enclosing contextlib.suppress). -/

/-- Outcome of one iteration's advisory-lock acquisition and stat pair. -/
inductive LockAttempt where
  | timeout
  | acquired (fdIno : Option Int) (pathIno : Option Int)
deriving DecidableEq, Repr

/-- Observable actions of the __enter__ loop. -/
inductive ELEvent where
  | tryAcquire
  | releaseLock
  | sleepCheckInterval
  | writePid
  | sleepLockDelay
deriving DecidableEq, Repr

/-- The inode-identity check: both stat calls succeeded and agree. -/
def inodeMatch (fdIno pathIno : Option Int) : Bool :=
  match fdIno, pathIno with
  | some a, some b => a == b
  | _, _ => false

/-- execlock.ExecutionLock.__enter__ acquisition loop: acquire, verify the
inode identity of the open descriptor against the path, and on mismatch
release, sleep check_interval, and retry; on portalocker timeout raise
ExecLockError; on success write our pid (exclusive locks only) and sleep
lock_delay.  Returns `none` when the oracle trace ends mid-loop (still
blocking), else the raised error or the locked inode, plus the event trace. -/
def execEnterLoop (isShared : Bool) (lockDelay : Int) :
    List LockAttempt → Option (Except Unit Int) × List ELEvent
  | [] => (none, [])
  | LockAttempt.timeout :: _ => (some (Except.error ()), [ELEvent.tryAcquire])
  | LockAttempt.acquired fdIno pathIno :: rest =>
    if inodeMatch fdIno pathIno then
      (some (Except.ok (fdIno.getD 0)),
       ELEvent.tryAcquire ::
         ((if !isShared then [ELEvent.writePid] else []) ++
          (if 0 < lockDelay then [ELEvent.sleepLockDelay] else [])))
    else
      let r := execEnterLoop isShared lockDelay rest
      (r.1, ELEvent.tryAcquire :: ELEvent.releaseLock :: ELEvent.sleepCheckInterval :: r.2)

/-- C2: whenever __enter__ returns successfully the locked descriptor's
inode equals the inode found by stat at the lock path (the successful
attempt satisfied the inode-identity check); an attempt with an inode
mismatch (or failed stat) releases the lock, sleeps check_interval, and
retries with the remaining attempts; portalocker's timeout expiry raises
ExecLockError. -/
theorem execlock_enter_stolen_recovery (isShared : Bool) (lockDelay : Int) :
    (∀ (l : List LockAttempt) (ino : Int),
      (execEnterLoop isShared lockDelay l).1 = some (Except.ok ino) →
      ∃ k rest, l.drop k = LockAttempt.acquired (some ino) (some ino) :: rest) ∧
    (∀ (fdIno pathIno : Option Int) (rest : List LockAttempt),
      inodeMatch fdIno pathIno = false →
      execEnterLoop isShared lockDelay (LockAttempt.acquired fdIno pathIno :: rest)
        = ((execEnterLoop isShared lockDelay rest).1,
           ELEvent.tryAcquire :: ELEvent.releaseLock :: ELEvent.sleepCheckInterval ::
             (execEnterLoop isShared lockDelay rest).2)) ∧
    (∀ rest : List LockAttempt,
      (execEnterLoop isShared lockDelay (LockAttempt.timeout :: rest)).1
        = some (Except.error ())) := by
  refine ⟨?_, ?_, ?_⟩
  · intro l
    induction l with
    | nil => intro ino h; exact absurd h (by simp [execEnterLoop])
    | cons a rest ih =>
      intro ino h
      cases a with
      | timeout =>
        rw [execEnterLoop] at h
        simp at h
      | acquired fdIno pathIno =>
        rw [execEnterLoop] at h
        by_cases hm : inodeMatch fdIno pathIno = true
        · rw [if_pos hm] at h
          simp only [Option.some.injEq] at h
          cases fdIno with
          | none => simp [inodeMatch] at hm
          | some a =>
            cases pathIno with
            | none => simp [inodeMatch] at hm
            | some b =>
              have hab : a = b := by
                simpa [inodeMatch] using hm
              have hino : a = ino := by simpa using h
              refine ⟨0, rest, ?_⟩
              simp [← hab, hino]
        · rw [if_neg hm] at h
          obtain ⟨k, rest2, hk⟩ := ih ino h
          exact ⟨k + 1, rest2, by simpa using hk⟩
  · intro fdIno pathIno rest hm
    rw [execEnterLoop, if_neg (by simp [hm])]
  · intro rest
    rw [execEnterLoop]

/-- Witness for C2 at concrete inputs (a stolen-then-recovered trace). -/
theorem execlock_enter_stolen_recovery_witness :
    ((execEnterLoop false 0
        [LockAttempt.acquired (some 3) (some 4),
         LockAttempt.acquired (some 7) (some 7)]).1 = some (Except.ok 7) →
      ∃ k rest,
        ([LockAttempt.acquired (some 3) (some 4),
          LockAttempt.acquired (some 7) (some 7)]).drop k
          = LockAttempt.acquired (some 7) (some 7) :: rest) ∧
    (inodeMatch (some 3) (some 4) = false →
      execEnterLoop false 0
          (LockAttempt.acquired (some 3) (some 4) :: [LockAttempt.acquired (some 7) (some 7)])
        = ((execEnterLoop false 0 [LockAttempt.acquired (some 7) (some 7)]).1,
           ELEvent.tryAcquire :: ELEvent.releaseLock :: ELEvent.sleepCheckInterval ::
             (execEnterLoop false 0 [LockAttempt.acquired (some 7) (some 7)]).2)) ∧
    (execEnterLoop false 0 (LockAttempt.timeout :: [])).1 = some (Except.error ()) :=
  ⟨(execlock_enter_stolen_recovery false 0).1
      [LockAttempt.acquired (some 3) (some 4), LockAttempt.acquired (some 7) (some 7)] 7,
   (execlock_enter_stolen_recovery false 0).2.1 (some 3) (some 4)
      [LockAttempt.acquired (some 7) (some 7)],
   (execlock_enter_stolen_recovery false 0).2.2 []⟩

/-! ### RunLevelLock (execlock.RunLevelLock)

The lock list self._lock is modelled by a held predicate on level indices
(index 0 is the None placeholder, 1 the base shared lock, 2.. the counted
real-level locks); each underlying acquire/release is assumed to succeed
(blocking locks) and is recorded as an event.  The `_set_ilevel_cb` /
`_lock_invalid_cb` hooks are no-ops in the source and are not modelled;
lock paths are assumed valid. -/

/-- Static configuration of a RunLevelLock instance. -/
structure RLConfig where
  numLevels : Nat        -- len(self._level_list)
  runningIlevel : Nat    -- self._running_ilevel
  lockDelay : Int        -- self.lock_delay
  processExiting : Bool  -- oracle for execlock.process_exiting()

/-- Mutable state of a RunLevelLock instance (lock-related fields). -/
structure RLState where
  ilevelLastSet : Nat           -- self._ilevel_last_set
  cmMap : List (Nat × Nat)      -- self._ilevel_cm_map (context-manager token to requested ilevel)
  held : Nat → Bool             -- self._lock[i].locked
  soloLocked : Bool             -- self._solo_lock.locked
  runningLocked : Bool          -- self._running_lock.locked
  runningShared : Bool          -- self._running_lock.shared_lock
  enterCount : Int              -- ReentrantMeta count of the RunLevelLock itself

/-- Lock operations performed by _set_ilevel, in order. -/
inductive RLEvent where
  | exitLevel (i : Nat)
  | enterLevel (i : Nat)
  | releaseRunning
  | acquireRunning (shared : Bool)
  | sleepLockDelay
deriving DecidableEq, Repr

/-- The ExecLockError raise sites inside _set_ilevel. -/
inductive RLError where
  | invalidIlevel
  | needEnter
  | soloChange
deriving DecidableEq, Repr

/-- RunLevelLock._current_ilevel: count how many locks starting at index 1
are held, stopping at the first unheld one. -/
def currentIlevel (numLevels : Nat) (held : Nat → Bool) : Nat :=
  ((List.range' 1 (numLevels - 1)).takeWhile held).length

/-- The effective target level: max of the last explicitly set level and
all scoped-region requests (empty map contributes 0). -/
def effectiveIlevel (s : RLState) : Nat :=
  max s.ilevelLastSet ((s.cmMap.map Prod.snd).foldl max 0)

/-- Python dict assignment self._ilevel_cm_map[cm] = ilevel. -/
def updateAssoc (m : List (Nat × Nat)) (k v : Nat) : List (Nat × Nat) :=
  if m.any (fun p => p.1 == k) then m.map (fun p => if p.1 == k then (k, v) else p)
  else m ++ [(k, v)]

/-- The cm-map bookkeeping at the top of _set_ilevel (before any lock is
touched): explicit set_level clears the map; a scoped region records or
withdraws its request. -/
def rlBookkeep (s : RLState) (ilevel : Option Nat) (cm : Option Nat) : RLState :=
  match cm with
  | none =>
    match ilevel with
    | some i => { s with ilevelLastSet := i, cmMap := [] }
    | none => s  -- unreachable: rejected by the validity guard
  | some c =>
    match ilevel with
    | none => { s with cmMap := s.cmMap.filter (fun p => p.1 ≠ c) }
    | some i => { s with cmMap := updateAssoc s.cmMap c i }

/-- RunLevelLock._set_running: release or (re-)acquire the shared running
lock; acquisition is skipped while the process is exiting. -/
def setRunning (cfg : RLConfig) (s : RLState) (running exclusive : Bool) :
    RLState × List RLEvent :=
  let s1 := { s with runningShared := !exclusive }
  if running && !s1.runningLocked && !cfg.processExiting then
    ({ s1 with runningLocked := true }, [RLEvent.acquireRunning s1.runningShared])
  else if !running && s1.runningLocked then
    ({ s1 with runningLocked := false }, [RLEvent.releaseRunning])
  else (s1, [])

/-- One step of the descending release loop. -/
def exitLevelsStep (st : (Nat → Bool) × List RLEvent) (i : Nat) :
    (Nat → Bool) × List RLEvent :=
  if st.1 i then (Function.update st.1 i false, st.2 ++ [RLEvent.exitLevel i]) else st

/-- One step of the ascending acquire loop (with the once-only lock_delay
sleep after freshly acquiring the first real level, index 2). -/
def enterLevelsStep (lockDelay : Int) (st : (Nat → Bool) × List RLEvent) (i : Nat) :
    (Nat → Bool) × List RLEvent :=
  if !(st.1 i) then
    (Function.update st.1 i true,
     st.2 ++ RLEvent.enterLevel i ::
       (if i == 2 && decide (0 < lockDelay) then [RLEvent.sleepLockDelay] else []))
  else st

/-- The invalid-ilevel guard at the top of _set_ilevel. -/
def ilevelInvalid (numLevels : Nat) (ilevel cm : Option Nat) : Bool :=
  (ilevel.isNone && cm.isNone)
    || (match ilevel with | some i => decide (numLevels ≤ i) | none => false)

/-- The must-be-entered guard of _set_ilevel. -/
def needsEnterGuard (s : RLState) (ilevel : Option Nat) : Bool :=
  (match ilevel with | some i => decide (0 < i) | none => false)
    && decide (s.enterCount ≤ 0)

/-- The two level-lock loops of _set_ilevel: release held locks with index
descending from numLevels-1 down to newIlevel+1, then acquire unheld locks
with index ascending from 1 up to newIlevel. -/
def lockLoops (cfg : RLConfig) (held0 : Nat → Bool) (newIlevel : Nat) :
    (Nat → Bool) × List RLEvent :=
  let pd := ((List.range' (newIlevel + 1) (cfg.numLevels - 1 - newIlevel)).reverse).foldl
    exitLevelsStep (held0, [])
  let pa := (List.range' 1 newIlevel).foldl (enterLevelsStep cfg.lockDelay) (pd.1, [])
  (pa.1, pd.2 ++ pa.2)

/-- The lock-manipulating tail of _set_ilevel (after the solo check):
release the running lock (when managing it), run the two level loops, and
re-acquire the running lock when the new level reaches the running
threshold. -/
def set_ilevel_locks (cfg : RLConfig) (s1 : RLState) (newIlevel : Nat)
    (manageRunning : Bool) : RLState × List RLEvent :=
  let p2 := if manageRunning then setRunning cfg s1 false false else (s1, [])
  let lp := lockLoops cfg p2.1.held newIlevel
  let s4 := { p2.1 with held := lp.1 }
  let p5 := if manageRunning && decide (cfg.runningIlevel ≤ newIlevel)
    then setRunning cfg s4 true false else (s4, [])
  (p5.1, p2.2 ++ lp.2 ++ p5.2)

/-- execlock.RunLevelLock._set_ilevel: validate, update the cm bookkeeping,
recompute the effective target, reject any change while solo is held, then
release held locks above the target in descending index order and acquire
missing locks up to the target in ascending index order, managing the
running lock around the transition. -/
def set_ilevel (cfg : RLConfig) (s : RLState) (ilevel cm : Option Nat)
    (manageRunning : Bool) : RLState × List RLEvent × Option RLError :=
  let num := cfg.numLevels
  if ilevelInvalid num ilevel cm then (s, [], some RLError.invalidIlevel)
  else if needsEnterGuard s ilevel then (s, [], some RLError.needEnter)
  else
    let s1 := rlBookkeep s ilevel cm
    let newIlevel := effectiveIlevel s1
    let cur := currentIlevel num s1.held
    if s1.soloLocked then
      if newIlevel ≠ cur then (s1, [], some RLError.soloChange)
      else (s1, [], none)
    else
      let r := set_ilevel_locks cfg s1 newIlevel manageRunning
      (r.1, r.2, none)

/-- RunLevelLock.__enter__ through the ReentrantMeta wrapper: the wrapped
body is just `return self`, so entry only increments the reentrance count
and acquires no lock at all. -/
def runLevelEnter (s : RLState) : RLState :=
  { s with enterCount := s.enterCount + 1 }

/-- The state of a freshly constructed RunLevelLock: nothing held. -/
def initRLState : RLState :=
  ⟨0, [], fun _ => false, false, false, true, 0⟩

/-- Levels freshly acquired during a transition, in order. -/
def enterLevelsOf (evs : List RLEvent) : List Nat :=
  evs.filterMap (fun e => match e with | RLEvent.enterLevel i => some i | _ => none)

/-- Levels released during a transition, in order. -/
def exitLevelsOf (evs : List RLEvent) : List Nat :=
  evs.filterMap (fun e => match e with | RLEvent.exitLevel i => some i | _ => none)

/-- The prefix lock state in which exactly levels 1..a are held. -/
def prefixHeld (a : Nat) : Nat → Bool :=
  fun i => decide (1 ≤ i ∧ i ≤ a)

theorem takeWhile_range_prefixHeld :
    ∀ (cnt s a : Nat), 1 ≤ s →
      (List.range' s cnt).takeWhile (prefixHeld a)
        = List.range' s (if s + cnt ≤ a + 1 then cnt else a + 1 - s) := by
  intro cnt
  induction cnt with
  | zero =>
    intro s a hs
    rcases le_or_lt (s + 0) (a + 1) with h | h
    · rw [if_pos h]; simp
    · rw [if_neg (by omega)]
      have h0 : a + 1 - s = 0 := by omega
      rw [h0]; simp
  | succ cnt ih =>
    intro s a hs
    rw [List.range'_succ]
    by_cases hsa : s ≤ a
    · have hp : prefixHeld a s = true := by simp [prefixHeld]; omega
      rw [List.takeWhile_cons_of_pos hp, ih (s + 1) a (by omega)]
      by_cases hc : s + (cnt + 1) ≤ a + 1
      · rw [if_pos (by omega), if_pos hc, ← List.range'_succ]
      · rw [if_neg (by omega), if_neg hc]
        have h1 : a + 1 - s = (a + 1 - (s + 1)) + 1 := by omega
        rw [h1, ← List.range'_succ]
    · have hp : prefixHeld a s = false := by simp [prefixHeld]; omega
      rw [List.takeWhile_cons_of_neg (by simp [hp]), if_neg (by omega)]
      have h0 : a + 1 - s = 0 := by omega
      rw [h0]; simp

theorem currentIlevel_prefixHeld (num a : Nat) (ha : a ≤ num - 1) :
    currentIlevel num (prefixHeld a) = a := by
  rw [currentIlevel, takeWhile_range_prefixHeld (num - 1) 1 a (le_refl 1),
    List.length_range']
  split <;> omega

theorem filter_range'_prefixHeld_nil :
    ∀ (cnt s a : Nat), a < s → (List.range' s cnt).filter (prefixHeld a) = [] := by
  intro cnt
  induction cnt with
  | zero => intro s a _; rfl
  | succ cnt ih =>
    intro s a h
    rw [List.range'_succ]
    have hp : prefixHeld a s = false := by simp [prefixHeld]; omega
    rw [List.filter_cons_of_neg (by simp [hp])]
    exact ih (s + 1) a (by omega)

theorem filter_range'_prefixHeld :
    ∀ (cnt s a : Nat), 1 ≤ s →
      (List.range' s cnt).filter (prefixHeld a)
        = List.range' s (if s + cnt ≤ a + 1 then cnt else a + 1 - s) := by
  intro cnt
  induction cnt with
  | zero =>
    intro s a hs
    rcases le_or_lt (s + 0) (a + 1) with h | h
    · rw [if_pos h]; simp
    · rw [if_neg (by omega)]
      have h0 : a + 1 - s = 0 := by omega
      rw [h0]; simp
  | succ cnt ih =>
    intro s a hs
    rw [List.range'_succ]
    by_cases hsa : s ≤ a
    · have hp : prefixHeld a s = true := by simp [prefixHeld]; omega
      rw [List.filter_cons_of_pos (by simp [hp]), ih (s + 1) a (by omega)]
      by_cases hc : s + (cnt + 1) ≤ a + 1
      · rw [if_pos (by omega), if_pos hc, ← List.range'_succ]
      · rw [if_neg (by omega), if_neg hc]
        have h1 : a + 1 - s = (a + 1 - (s + 1)) + 1 := by omega
        rw [h1, ← List.range'_succ]
    · have hp : prefixHeld a s = false := by simp [prefixHeld]; omega
      rw [List.filter_cons_of_neg (by simp [hp]),
        filter_range'_prefixHeld_nil cnt (s + 1) a (by omega), if_neg (by omega)]
      have h0 : a + 1 - s = 0 := by omega
      rw [h0]; simp

theorem filter_range'_not_prefixHeld :
    ∀ (cnt s a : Nat), 1 ≤ s →
      (List.range' s cnt).filter (fun i => !(prefixHeld a i))
        = if a + 1 ≤ s then List.range' s cnt
          else List.range' (a + 1) (cnt - (a + 1 - s)) := by
  intro cnt
  induction cnt with
  | zero =>
    intro s a hs
    split
    · rfl
    · simp
  | succ cnt ih =>
    intro s a hs
    rw [List.range'_succ]
    by_cases has : a + 1 ≤ s
    · have hp : prefixHeld a s = false := by simp [prefixHeld]; omega
      rw [List.filter_cons_of_pos (by simp [hp]), ih (s + 1) a (by omega),
        if_pos (by omega), if_pos has, ← List.range'_succ]
    · have hp : prefixHeld a s = true := by simp [prefixHeld]; omega
      rw [List.filter_cons_of_neg (by simp [hp]), ih (s + 1) a (by omega),
        if_neg has]
      by_cases heq : a + 1 ≤ s + 1
      · rw [if_pos heq]
        have h1 : a + 1 = s + 1 := by omega
        rw [h1]
        congr 1
        omega
      · rw [if_neg heq]
        congr 1
        omega

theorem enterLevelsOf_append (a b : List RLEvent) :
    enterLevelsOf (a ++ b) = enterLevelsOf a ++ enterLevelsOf b := by
  simp [enterLevelsOf]

theorem exitLevelsOf_append (a b : List RLEvent) :
    exitLevelsOf (a ++ b) = exitLevelsOf a ++ exitLevelsOf b := by
  simp [exitLevelsOf]

theorem exitLoop_fold :
    ∀ (L : List Nat), L.Nodup → ∀ (h : Nat → Bool) (evs : List RLEvent),
      exitLevelsOf ((L.foldl exitLevelsStep (h, evs)).2)
          = exitLevelsOf evs ++ L.filter h ∧
      enterLevelsOf ((L.foldl exitLevelsStep (h, evs)).2) = enterLevelsOf evs ∧
      (∀ j, (L.foldl exitLevelsStep (h, evs)).1 j = if j ∈ L then false else h j) := by
  intro L
  induction L with
  | nil =>
    intro _ h evs
    refine ⟨by simp, by simp, fun j => by simp⟩
  | cons i L ih =>
    intro hnd h evs
    have hiL : i ∉ L := (List.nodup_cons.mp hnd).1
    have hndL : L.Nodup := (List.nodup_cons.mp hnd).2
    rw [List.foldl_cons]
    cases hh : h i with
    | true =>
      have hstep : exitLevelsStep (h, evs) i
          = (Function.update h i false, evs ++ [RLEvent.exitLevel i]) := by
        simp [exitLevelsStep, hh]
      rw [hstep]
      obtain ⟨ihe, ihn, ihh⟩ :=
        ih hndL (Function.update h i false) (evs ++ [RLEvent.exitLevel i])
      have hcong : L.filter (Function.update h i false) = L.filter h :=
        List.filter_congr (fun x hx => by
          rw [Function.update_noteq (fun hxe : x = i => hiL (hxe ▸ hx))])
      refine ⟨?_, ?_, ?_⟩
      · rw [ihe, hcong, List.filter_cons_of_pos (by simp [hh]),
          exitLevelsOf_append]
        simp [exitLevelsOf]
      · rw [ihn, enterLevelsOf_append]
        simp [enterLevelsOf]
      · intro j
        rw [ihh j]
        by_cases hj : j ∈ L
        · simp [hj]
        · by_cases hji : j = i
          · subst hji
            simp [hj, Function.update_same]
          · simp [hj, hji, Function.update_noteq hji]
    | false =>
      have hstep : exitLevelsStep (h, evs) i = (h, evs) := by
        simp [exitLevelsStep, hh]
      rw [hstep]
      obtain ⟨ihe, ihn, ihh⟩ := ih hndL h evs
      refine ⟨?_, ihn, ?_⟩
      · rw [ihe, List.filter_cons_of_neg (by simp [hh])]
      · intro j
        rw [ihh j]
        by_cases hji : j = i
        · subst hji
          by_cases hj : j ∈ L <;> simp [hj, hh]
        · simp [hji]

theorem enterLoop_fold (d : Int) :
    ∀ (L : List Nat), L.Nodup → ∀ (h : Nat → Bool) (evs : List RLEvent),
      enterLevelsOf ((L.foldl (enterLevelsStep d) (h, evs)).2)
          = enterLevelsOf evs ++ L.filter (fun i => !(h i)) ∧
      exitLevelsOf ((L.foldl (enterLevelsStep d) (h, evs)).2) = exitLevelsOf evs ∧
      (∀ j, (L.foldl (enterLevelsStep d) (h, evs)).1 j = if j ∈ L then true else h j) := by
  intro L
  induction L with
  | nil =>
    intro _ h evs
    refine ⟨by simp, by simp, fun j => by simp⟩
  | cons i L ih =>
    intro hnd h evs
    have hiL : i ∉ L := (List.nodup_cons.mp hnd).1
    have hndL : L.Nodup := (List.nodup_cons.mp hnd).2
    rw [List.foldl_cons]
    cases hh : h i with
    | false =>
      have hstep : enterLevelsStep d (h, evs) i
          = (Function.update h i true,
             evs ++ RLEvent.enterLevel i ::
               (if i == 2 && decide (0 < d) then [RLEvent.sleepLockDelay] else [])) := by
        simp [enterLevelsStep, hh]
      rw [hstep]
      obtain ⟨ihe, ihn, ihh⟩ := ih hndL (Function.update h i true) _
      have hcong : L.filter (fun x => !(Function.update h i true x))
          = L.filter (fun x => !(h x)) :=
        List.filter_congr (fun x hx => by
          rw [Function.update_noteq (fun hxe : x = i => hiL (hxe ▸ hx))])
      refine ⟨?_, ?_, ?_⟩
      · rw [ihe, hcong, List.filter_cons_of_pos (by simp [hh]),
          enterLevelsOf_append]
        have : enterLevelsOf (RLEvent.enterLevel i ::
            (if i == 2 && decide (0 < d) then [RLEvent.sleepLockDelay] else [])) = [i] := by
          split <;> simp [enterLevelsOf]
        rw [this]
        simp
      · rw [ihn, exitLevelsOf_append]
        have : exitLevelsOf (RLEvent.enterLevel i ::
            (if i == 2 && decide (0 < d) then [RLEvent.sleepLockDelay] else [])) = [] := by
          split <;> simp [exitLevelsOf]
        rw [this]
        simp
      · intro j
        rw [ihh j]
        by_cases hj : j ∈ L
        · simp [hj]
        · by_cases hji : j = i
          · subst hji
            simp [hj, Function.update_same]
          · simp [hj, hji, Function.update_noteq hji]
    | true =>
      have hstep : enterLevelsStep d (h, evs) i = (h, evs) := by
        simp [enterLevelsStep, hh]
      rw [hstep]
      obtain ⟨ihe, ihn, ihh⟩ := ih hndL h evs
      refine ⟨?_, ihn, ?_⟩
      · rw [ihe, List.filter_cons_of_neg (by simp [hh])]
      · intro j
        rw [ihh j]
        by_cases hji : j = i
        · subst hji
          by_cases hj : j ∈ L <;> simp [hj, hh]
        · simp [hji]

theorem setRunning_no_level_events (cfg : RLConfig) (s : RLState) (r x : Bool) :
    enterLevelsOf (setRunning cfg s r x).2 = [] ∧
    exitLevelsOf (setRunning cfg s r x).2 = [] ∧
    (setRunning cfg s r x).1.held = s.held := by
  rw [setRunning]
  split
  · exact ⟨by simp [enterLevelsOf], by simp [exitLevelsOf], rfl⟩
  · split
    · exact ⟨by simp [enterLevelsOf], by simp [exitLevelsOf], rfl⟩
    · exact ⟨by simp [enterLevelsOf], by simp [exitLevelsOf], rfl⟩

theorem lockLoops_spec (cfg : RLConfig) (held0 : Nat → Bool) (a b : Nat)
    (hheld : held0 = prefixHeld a) (ha : a ≤ cfg.numLevels - 1)
    (hb : b < cfg.numLevels) :
    exitLevelsOf (lockLoops cfg held0 b).2 = (List.range' (b + 1) (a - b)).reverse ∧
    enterLevelsOf (lockLoops cfg held0 b).2 = List.range' (a + 1) (b - a) ∧
    (∀ j, (lockLoops cfg held0 b).1 j = prefixHeld b j) := by
  subst hheld
  have hnd1 : ((List.range' (b + 1) (cfg.numLevels - 1 - b)).reverse).Nodup := by
    simp [List.nodup_range']
  have hnd2 : (List.range' 1 b).Nodup := List.nodup_range' 1 b
  obtain ⟨hde, hdn, hdh⟩ := exitLoop_fold _ hnd1 (prefixHeld a) []
  have hfilt1 : ((List.range' (b + 1) (cfg.numLevels - 1 - b)).reverse).filter (prefixHeld a)
      = (List.range' (b + 1) (a - b)).reverse := by
    rw [List.filter_reverse, filter_range'_prefixHeld _ _ _ (by omega)]
    congr 2
    split <;> omega
  set pd := ((List.range' (b + 1) (cfg.numLevels - 1 - b)).reverse).foldl
    exitLevelsStep (prefixHeld a, []) with hpd
  obtain ⟨hae, han, hah⟩ := enterLoop_fold cfg.lockDelay _ hnd2 pd.1 []
  have hpdcong : (List.range' 1 b).filter (fun i => !(pd.1 i))
      = (List.range' 1 b).filter (fun i => !(prefixHeld a i)) := by
    refine List.filter_congr (fun x hx => ?_)
    rw [hdh x]
    rw [List.mem_range'_1] at hx
    have hxn : x ∉ (List.range' (b + 1) (cfg.numLevels - 1 - b)).reverse := by
      rw [List.mem_reverse, List.mem_range'_1]
      omega
    rw [if_neg hxn]
  have hfilt2 : (List.range' 1 b).filter (fun i => !(prefixHeld a i))
      = List.range' (a + 1) (b - a) := by
    rw [filter_range'_not_prefixHeld _ _ _ (le_refl 1)]
    split
    next h => congr 1 <;> omega
    next h => congr 1
  have hsplit : (lockLoops cfg (prefixHeld a) b).2
      = pd.2 ++ (List.foldl (enterLevelsStep cfg.lockDelay) (pd.1, []) (List.range' 1 b)).2 :=
    rfl
  have hheld1 : (lockLoops cfg (prefixHeld a) b).1
      = (List.foldl (enterLevelsStep cfg.lockDelay) (pd.1, []) (List.range' 1 b)).1 :=
    rfl
  refine ⟨?_, ?_, ?_⟩
  · rw [hsplit, exitLevelsOf_append, hde, han, hfilt1]
    simp [exitLevelsOf]
  · rw [hsplit, enterLevelsOf_append, hdn, hae, hpdcong, hfilt2]
    simp [enterLevelsOf]
  · intro j
    rw [hheld1, hah j]
    by_cases h2 : j ∈ List.range' 1 b
    · rw [if_pos h2]
      rw [List.mem_range'_1] at h2
      simp only [prefixHeld]
      rw [eq_comm, decide_eq_true_iff]
      omega
    · rw [if_neg h2, hdh j]
      rw [List.mem_range'_1] at h2
      by_cases h1 : j ∈ (List.range' (b + 1) (cfg.numLevels - 1 - b)).reverse
      · rw [if_pos h1]
        rw [List.mem_reverse, List.mem_range'_1] at h1
        simp only [prefixHeld]
        rw [eq_comm, decide_eq_false_iff_not]
        omega
      · rw [if_neg h1]
        rw [List.mem_reverse, List.mem_range'_1] at h1
        simp only [prefixHeld]
        rw [decide_eq_decide]
        omega

theorem set_ilevel_locks_spec (cfg : RLConfig) (s1 : RLState) (a b : Nat)
    (mr : Bool) (hheld : s1.held = prefixHeld a) (ha : a ≤ cfg.numLevels - 1)
    (hb : b < cfg.numLevels) :
    exitLevelsOf (set_ilevel_locks cfg s1 b mr).2
      = (List.range' (b + 1) (a - b)).reverse ∧
    enterLevelsOf (set_ilevel_locks cfg s1 b mr).2 = List.range' (a + 1) (b - a) ∧
    (∀ j, (set_ilevel_locks cfg s1 b mr).1.held j = prefixHeld b j) := by
  have hp2 : enterLevelsOf (if mr then setRunning cfg s1 false false else (s1, [])).2 = [] ∧
      exitLevelsOf (if mr then setRunning cfg s1 false false else (s1, [])).2 = [] ∧
      (if mr then setRunning cfg s1 false false else (s1, [])).1.held = s1.held := by
    cases mr
    · exact ⟨by simp [enterLevelsOf], by simp [exitLevelsOf], by simp⟩
    · simpa using setRunning_no_level_events cfg s1 false false
  obtain ⟨hp2e, hp2x, hp2h⟩ := hp2
  have hlp := lockLoops_spec cfg
    (if mr then setRunning cfg s1 false false else (s1, [])).1.held a b
    (by rw [hp2h, hheld]) ha hb
  obtain ⟨hlx, hle, hlh⟩ := hlp
  rw [set_ilevel_locks]
  have hp5 : ∀ (s4 : RLState),
      enterLevelsOf (if mr && decide (cfg.runningIlevel ≤ b)
          then setRunning cfg s4 true false else (s4, [])).2 = [] ∧
      exitLevelsOf (if mr && decide (cfg.runningIlevel ≤ b)
          then setRunning cfg s4 true false else (s4, [])).2 = [] ∧
      (if mr && decide (cfg.runningIlevel ≤ b)
          then setRunning cfg s4 true false else (s4, [])).1.held = s4.held := by
    intro s4
    cases hc : (mr && decide (cfg.runningIlevel ≤ b))
    · exact ⟨by simp [enterLevelsOf], by simp [exitLevelsOf], by simp⟩
    · simpa using setRunning_no_level_events cfg s4 true false
  refine ⟨?_, ?_, ?_⟩
  · simp only [exitLevelsOf_append]
    rw [hp2x, hlx, (hp5 _).2.1]
    simp
  · simp only [enterLevelsOf_append]
    rw [hp2e, hle, (hp5 _).1]
    simp
  · intro j
    rw [(hp5 _).2.2]
    exact hlh j

/-- C5: a set_level(b) call from the well-formed state holding exactly
levels 1..a (made inside the entered context, solo not held) releases the
held locks above b strictly in descending index order (a, a-1, ..., b+1),
acquires the missing locks strictly in ascending index order
(a+1, ..., b), and ends holding exactly levels 1..b.  Hence during
escalation every intermediate level a < k ≤ b is held at the moment the
call returns, and during de-escalation every intermediate level
b < k ≤ a was held at the moment the call started. -/
theorem runlevel_set_ilevel_ordering (cfg : RLConfig) (s : RLState)
    (a b : Nat) (mr : Bool) (hheld : s.held = prefixHeld a)
    (hsolo : s.soloLocked = false) (hcount : 1 ≤ s.enterCount)
    (ha : a ≤ cfg.numLevels - 1) (hb : b < cfg.numLevels) :
    (set_ilevel cfg s (some b) none mr).2.2 = none ∧
    exitLevelsOf (set_ilevel cfg s (some b) none mr).2.1
      = (List.range' (b + 1) (a - b)).reverse ∧
    enterLevelsOf (set_ilevel cfg s (some b) none mr).2.1
      = List.range' (a + 1) (b - a) ∧
    (∀ j, (set_ilevel cfg s (some b) none mr).1.held j = prefixHeld b j) ∧
    (∀ k, a < k → k ≤ b → (set_ilevel cfg s (some b) none mr).1.held k = true) ∧
    (∀ k, b < k → k ≤ a → s.held k = true) := by
  have hinv : ilevelInvalid cfg.numLevels (some b) none = false := by
    simp [ilevelInvalid]
    omega
  have hng : needsEnterGuard s (some b) = false := by
    simp [needsEnterGuard]
    omega
  have hsl : (rlBookkeep s (some b) none).soloLocked = false := hsolo
  have heff : effectiveIlevel (rlBookkeep s (some b) none) = b := by
    simp [effectiveIlevel, rlBookkeep]
  have hsh : (rlBookkeep s (some b) none).held = prefixHeld a := hheld
  have hspec := set_ilevel_locks_spec cfg (rlBookkeep s (some b) none) a b mr hsh ha hb
  have hkey : set_ilevel cfg s (some b) none mr
      = ((set_ilevel_locks cfg (rlBookkeep s (some b) none) b mr).1,
         (set_ilevel_locks cfg (rlBookkeep s (some b) none) b mr).2,
         none) := by
    rw [set_ilevel]
    simp only [hinv, hng, Bool.false_eq_true, if_false, hsl, heff]
  rw [hkey]
  refine ⟨rfl, hspec.1, hspec.2.1, fun j => hspec.2.2 j, ?_, ?_⟩
  · intro k hk1 hk2
    refine Eq.trans (hspec.2.2 k) ?_
    simp only [prefixHeld, decide_eq_true_iff]
    omega
  · intro k hk1 hk2
    rw [hheld]
    simp only [prefixHeld, decide_eq_true_iff]
    omega

/-- Witness for C5 at a concrete instance (escalation from level 1 to 3
with 4 levels). -/
theorem runlevel_set_ilevel_ordering_witness :
    ((⟨0, [], prefixHeld 1, false, false, true, 1⟩ : RLState).held = prefixHeld 1 ∧
     (⟨0, [], prefixHeld 1, false, false, true, 1⟩ : RLState).soloLocked = false ∧
     1 ≤ (⟨0, [], prefixHeld 1, false, false, true, 1⟩ : RLState).enterCount ∧
     1 ≤ (⟨4, 2, 0, false⟩ : RLConfig).numLevels - 1 ∧
     3 < (⟨4, 2, 0, false⟩ : RLConfig).numLevels) ∧
    ((set_ilevel ⟨4, 2, 0, false⟩ ⟨0, [], prefixHeld 1, false, false, true, 1⟩
        (some 3) none false).2.2 = none ∧
     exitLevelsOf (set_ilevel ⟨4, 2, 0, false⟩ ⟨0, [], prefixHeld 1, false, false, true, 1⟩
        (some 3) none false).2.1 = (List.range' (3 + 1) (1 - 3)).reverse ∧
     enterLevelsOf (set_ilevel ⟨4, 2, 0, false⟩ ⟨0, [], prefixHeld 1, false, false, true, 1⟩
        (some 3) none false).2.1 = List.range' (1 + 1) (3 - 1) ∧
     (∀ j, (set_ilevel ⟨4, 2, 0, false⟩ ⟨0, [], prefixHeld 1, false, false, true, 1⟩
        (some 3) none false).1.held j = prefixHeld 3 j) ∧
     (∀ k, 1 < k → k ≤ 3 → (set_ilevel ⟨4, 2, 0, false⟩ ⟨0, [], prefixHeld 1, false, false, true, 1⟩
        (some 3) none false).1.held k = true) ∧
     (∀ k, 3 < k → k ≤ 1 →
        (⟨0, [], prefixHeld 1, false, false, true, 1⟩ : RLState).held k = true)) :=
  ⟨⟨rfl, rfl, by norm_num, by norm_num, by norm_num⟩,
   runlevel_set_ilevel_ordering ⟨4, 2, 0, false⟩ ⟨0, [], prefixHeld 1, false, false, true, 1⟩
     1 3 false rfl rfl (by norm_num) (by norm_num) (by norm_num)⟩

/-- C3 counterexample: entering the RunLevelLock outer context manager from
the freshly constructed state acquires nothing: the base lock (index 1) is
not held afterwards and the current level index is 0 (UNLOCKED), not 1
(BASE), contrary to the claim. -/
theorem runlevel_enter_counterexample :
    (runLevelEnter initRLState).held 1 = false ∧
    currentIlevel 4 (runLevelEnter initRLState).held = 0 ∧
    ¬((runLevelEnter initRLState).held 1 = true ∧
      currentIlevel 4 (runLevelEnter initRLState).held = 1) := by
  refine ⟨rfl, by decide, ?_⟩
  intro h
  exact absurd h.1 (by decide)

/-- C3 amended: entering the RunLevelLock scoped region only increments the
reentrance count and acquires no lock at all (the held set, solo and
running locks are untouched, and the current level stays UNLOCKED); the
base shared lock is acquired lazily, as the first lock taken by the first
subsequent level escalation. -/
theorem runlevel_enter_lazy_base (cfg : RLConfig) (b : Nat)
    (hb1 : 1 ≤ b) (hb2 : b < cfg.numLevels) (hnum : 1 ≤ cfg.numLevels - 1) :
    (∀ s : RLState, (runLevelEnter s).held = s.held ∧
      (runLevelEnter s).soloLocked = s.soloLocked ∧
      (runLevelEnter s).runningLocked = s.runningLocked ∧
      (runLevelEnter s).enterCount = s.enterCount + 1) ∧
    currentIlevel cfg.numLevels (runLevelEnter initRLState).held = 0 ∧
    (set_ilevel cfg (runLevelEnter initRLState) (some b) none true).2.2 = none ∧
    enterLevelsOf (set_ilevel cfg (runLevelEnter initRLState) (some b) none true).2.1
      = List.range' 1 b ∧
    (set_ilevel cfg (runLevelEnter initRLState) (some b) none true).1.held 1 = true := by
  have hheld0 : (runLevelEnter initRLState).held = prefixHeld 0 := by
    funext i
    simp [runLevelEnter, initRLState, prefixHeld]
    omega
  have hspec := runlevel_set_ilevel_ordering cfg (runLevelEnter initRLState) 0 b true
    hheld0 rfl (by simp [runLevelEnter, initRLState]) (by omega) hb2
  refine ⟨fun s => ⟨rfl, rfl, rfl, rfl⟩, ?_, hspec.1, ?_, ?_⟩
  · rw [hheld0]
    exact currentIlevel_prefixHeld cfg.numLevels 0 (by omega)
  · rw [hspec.2.2.1]
    congr 1
  · rw [hspec.2.2.2.1 1]
    simp only [prefixHeld, decide_eq_true_iff]
    omega

/-- Witness for the amended C3 theorem at a concrete instance. -/
theorem runlevel_enter_lazy_base_witness :
    (1 ≤ 2 ∧ 2 < (⟨4, 2, 0, false⟩ : RLConfig).numLevels ∧
     1 ≤ (⟨4, 2, 0, false⟩ : RLConfig).numLevels - 1) ∧
    ((∀ s : RLState, (runLevelEnter s).held = s.held ∧
        (runLevelEnter s).soloLocked = s.soloLocked ∧
        (runLevelEnter s).runningLocked = s.runningLocked ∧
        (runLevelEnter s).enterCount = s.enterCount + 1) ∧
     currentIlevel (⟨4, 2, 0, false⟩ : RLConfig).numLevels
        (runLevelEnter initRLState).held = 0 ∧
     (set_ilevel ⟨4, 2, 0, false⟩ (runLevelEnter initRLState) (some 2) none true).2.2 = none ∧
     enterLevelsOf (set_ilevel ⟨4, 2, 0, false⟩ (runLevelEnter initRLState)
        (some 2) none true).2.1 = List.range' 1 2 ∧
     (set_ilevel ⟨4, 2, 0, false⟩ (runLevelEnter initRLState)
        (some 2) none true).1.held 1 = true) :=
  ⟨⟨by norm_num, by norm_num, by norm_num⟩,
   runlevel_enter_lazy_base ⟨4, 2, 0, false⟩ 2 (by norm_num) (by norm_num) (by norm_num)⟩

/-- C8: while the solo lock is held, any _set_ilevel call (explicit
set_level or a scoped level region change) whose effective target level
differs from the current level fails with ExecLockError, performs no lock
operation, and leaves the held level locks, the running lock, and the solo
lock unchanged (only the cm bookkeeping is updated, as in the source). -/
theorem runlevel_solo_blocks_level_change (cfg : RLConfig) (s : RLState)
    (ilevel cm : Option Nat) (mr : Bool)
    (hsolo : s.soloLocked = true)
    (hval1 : ilevelInvalid cfg.numLevels ilevel cm = false)
    (hval2 : needsEnterGuard s ilevel = false)
    (hdiff : effectiveIlevel (rlBookkeep s ilevel cm)
      ≠ currentIlevel cfg.numLevels s.held) :
    (set_ilevel cfg s ilevel cm mr).2.2 = some RLError.soloChange ∧
    (set_ilevel cfg s ilevel cm mr).2.1 = [] ∧
    (set_ilevel cfg s ilevel cm mr).1.held = s.held ∧
    (set_ilevel cfg s ilevel cm mr).1.runningLocked = s.runningLocked ∧
    (set_ilevel cfg s ilevel cm mr).1.soloLocked = true := by
  have hbkh : (rlBookkeep s ilevel cm).held = s.held := by
    cases cm <;> cases ilevel <;> rfl
  have hbkr : (rlBookkeep s ilevel cm).runningLocked = s.runningLocked := by
    cases cm <;> cases ilevel <;> rfl
  have hbks : (rlBookkeep s ilevel cm).soloLocked = true := by
    cases cm <;> cases ilevel <;> exact hsolo
  have hdiff2 : effectiveIlevel (rlBookkeep s ilevel cm)
      ≠ currentIlevel cfg.numLevels (rlBookkeep s ilevel cm).held := by
    rw [hbkh]
    exact hdiff
  have hkey : set_ilevel cfg s ilevel cm mr
      = (rlBookkeep s ilevel cm, [], some RLError.soloChange) := by
    rw [set_ilevel]
    simp only [hval1, hval2, Bool.false_eq_true, if_false, hbks, if_true]
    simp [hdiff2]
  rw [hkey]
  exact ⟨rfl, rfl, hbkh, hbkr, hbks⟩

/-- Witness for C8 at a concrete instance (solo held at level 2, request
to drop to level 1). -/
theorem runlevel_solo_blocks_level_change_witness :
    ((⟨2, [], prefixHeld 2, true, false, true, 1⟩ : RLState).soloLocked = true ∧
     ilevelInvalid (⟨4, 2, 0, false⟩ : RLConfig).numLevels (some 1) none = false ∧
     needsEnterGuard (⟨2, [], prefixHeld 2, true, false, true, 1⟩ : RLState) (some 1) = false ∧
     effectiveIlevel (rlBookkeep ⟨2, [], prefixHeld 2, true, false, true, 1⟩ (some 1) none)
       ≠ currentIlevel (⟨4, 2, 0, false⟩ : RLConfig).numLevels
           (⟨2, [], prefixHeld 2, true, false, true, 1⟩ : RLState).held) ∧
    ((set_ilevel ⟨4, 2, 0, false⟩ ⟨2, [], prefixHeld 2, true, false, true, 1⟩
        (some 1) none true).2.2 = some RLError.soloChange ∧
     (set_ilevel ⟨4, 2, 0, false⟩ ⟨2, [], prefixHeld 2, true, false, true, 1⟩
        (some 1) none true).2.1 = [] ∧
     (set_ilevel ⟨4, 2, 0, false⟩ ⟨2, [], prefixHeld 2, true, false, true, 1⟩
        (some 1) none true).1.held
       = (⟨2, [], prefixHeld 2, true, false, true, 1⟩ : RLState).held ∧
     (set_ilevel ⟨4, 2, 0, false⟩ ⟨2, [], prefixHeld 2, true, false, true, 1⟩
        (some 1) none true).1.runningLocked
       = (⟨2, [], prefixHeld 2, true, false, true, 1⟩ : RLState).runningLocked ∧
     (set_ilevel ⟨4, 2, 0, false⟩ ⟨2, [], prefixHeld 2, true, false, true, 1⟩
        (some 1) none true).1.soloLocked = true) :=
  ⟨⟨rfl, by decide, by decide, by decide⟩,
   runlevel_solo_blocks_level_change ⟨4, 2, 0, false⟩
     ⟨2, [], prefixHeld 2, true, false, true, 1⟩ (some 1) none true
     rfl (by decide) (by decide) (by decide)⟩

/-! ### C9: ExecutionCLock._update_lock_file and signals.DeferSignals

The oracle supplies, per loop iteration, the outcome of acquiring the
internal exclusive advisory lock together with the stat results and the
ledger contents read under it.  The event vocabulary includes the enter and
exit of a signals.DeferSignals region, which execlock.py never performs
(it does not import ppyutil.signals); swap-file writes are modelled as
succeeding. -/

/-- Outcome of one _update_lock_file iteration's internal-lock acquisition. -/
inductive CUpdateAttempt where
  | timeout
  | acquired (fdIno : Option Int) (pathIno : Option Int) (contents : List Line)
deriving DecidableEq, Repr

/-- Observable actions of _update_lock_file (plus the DeferSignals region
markers, for stating whether a rewrite runs inside one). -/
inductive CEvent where
  | acquireLock
  | releaseLock
  | writeSwap (contents : List Line)
  | renameSwap
  | unlinkLedger
  | sleepCheckInterval
  | sleepLockDelay
  | deferSignalsEnter
  | deferSignalsExit
deriving DecidableEq, Repr

/-- execlock.ExecutionCLock._update_lock_file: under the internal exclusive
lock, verify inode identity, rewrite the ledger via _edit_lock_contents
(atomic swap-file rename when the contents changed, unlink when empty), and
loop (sleeping check_interval) until the locked state matches `enter`;
the oracle's timeout outcome models the portalocker timeout that is
re-raised as ExecLockError. -/
def updateLockFile (ourId : ProcessID) (ourIid maxCount : Int)
    (fromPid : Int → Option ProcessID) (enter : Bool) (lockDelay : Int)
    (locked0 : Bool) :
    List CUpdateAttempt → Option (Except Unit Bool) × List CEvent
  | [] => (none, [])
  | CUpdateAttempt.timeout :: _ => (some (Except.error ()), [])
  | CUpdateAttempt.acquired fdIno pathIno contents :: rest =>
    if inodeMatch fdIno pathIno then
      let r := edit_lock_contents ourId ourIid maxCount fromPid contents enter false
      if r.1 ≠ [] then
        let wr := if r.1 ≠ contents then [CEvent.writeSwap r.1, CEvent.renameSwap] else []
        if enter == r.2.2.2 then
          (some (Except.ok r.2.2.2),
           CEvent.acquireLock :: wr ++ [CEvent.releaseLock]
             ++ (if enter && decide (0 < lockDelay) then [CEvent.sleepLockDelay] else []))
        else
          let t := updateLockFile ourId ourIid maxCount fromPid enter lockDelay r.2.2.2 rest
          (t.1, CEvent.acquireLock :: wr
            ++ [CEvent.releaseLock, CEvent.sleepCheckInterval] ++ t.2)
      else
        if enter == false then
          (some (Except.ok false),
           [CEvent.acquireLock, CEvent.unlinkLedger, CEvent.releaseLock])
        else
          let t := updateLockFile ourId ourIid maxCount fromPid enter lockDelay false rest
          (t.1, CEvent.acquireLock :: CEvent.unlinkLedger ::
            CEvent.releaseLock :: CEvent.sleepCheckInterval :: t.2)
    else
      let t := updateLockFile ourId ourIid maxCount fromPid enter lockDelay locked0 rest
      (t.1, CEvent.acquireLock :: CEvent.releaseLock :: CEvent.sleepCheckInterval :: t.2)

/-- signals.DeferSignals state: the configured signal list and the FIFO of
signal numbers recorded while the region is active. -/
structure DeferSignalsState where
  signalList : List Int
  deferred : List Int
deriving DecidableEq, Repr

/-- signals.DeferSignals.defer_signal: the temporary handler just records
the delivered signal number. -/
def defer_signal (ds : DeferSignalsState) (sigNum : Int) : DeferSignalsState :=
  { ds with deferred := ds.deferred ++ [sigNum] }

/-- The while-pop(0)-kill loop of DeferSignals.__exit__: signals are
re-raised to the process in FIFO order. -/
def deferSignalsKills : List Int → List Int
  | [] => []
  | s :: rest => s :: deferSignalsKills rest

/-- signals.DeferSignals.__exit__: restore handlers (not modelled beyond
the state), then re-raise every deferred signal in FIFO order. -/
def deferSignals_exit (ds : DeferSignalsState) : DeferSignalsState × List Int :=
  ({ ds with deferred := [] }, deferSignalsKills ds.deferred)

/-- Whether a trace contains any DeferSignals region marker. -/
def hasDefer (l : List CEvent) : Bool :=
  l.any (fun e => e == CEvent.deferSignalsEnter || e == CEvent.deferSignalsExit)

/-- C9 counterexample: a ledger rewrite (swap-file write plus rename)
performed by _update_lock_file runs with no SignalDefer region anywhere in
its trace, contrary to the claim that every rewrite executes inside one. -/
theorem clock_rewrite_not_deferred_counterexample :
    CEvent.writeSwap [("9 0 1 3\n").toList]
      ∈ (updateLockFile ⟨1, some 2⟩ 5 2 (fun _ => none) false 0 true
          [CUpdateAttempt.acquired (some 3) (some 3)
            [("1 2 5 2\n").toList, ("9 0 1 3\n").toList]]).2 ∧
    hasDefer (updateLockFile ⟨1, some 2⟩ 5 2 (fun _ => none) false 0 true
          [CUpdateAttempt.acquired (some 3) (some 3)
            [("1 2 5 2\n").toList, ("9 0 1 3\n").toList]]).2 = false := by
  constructor <;> decide

theorem hasDefer_append_false {l1 l2 : List CEvent} (h1 : hasDefer l1 = false)
    (h2 : hasDefer l2 = false) : hasDefer (l1 ++ l2) = false := by
  rw [hasDefer] at h1 h2 ⊢
  rw [List.any_append]
  simp [h1, h2]

theorem hasDefer_cons_false {e : CEvent} {l : List CEvent}
    (he : (e == CEvent.deferSignalsEnter || e == CEvent.deferSignalsExit) = false)
    (h : hasDefer l = false) : hasDefer (e :: l) = false := by
  rw [hasDefer] at h ⊢
  rw [List.any_cons]
  simp [he, h]

theorem hasDefer_ite_false {c : Prop} [Decidable c] {l1 l2 : List CEvent}
    (h1 : hasDefer l1 = false) (h2 : hasDefer l2 = false) :
    hasDefer (if c then l1 else l2) = false := by
  split
  · exact h1
  · exact h2

theorem updateLockFile_no_defer (ourId : ProcessID) (ourIid maxCount : Int)
    (fromPid : Int → Option ProcessID) (enter : Bool) (lockDelay : Int) :
    ∀ (attempts : List CUpdateAttempt) (locked0 : Bool),
      hasDefer (updateLockFile ourId ourIid maxCount fromPid enter lockDelay
        locked0 attempts).2 = false := by
  intro attempts
  induction attempts with
  | nil => intro locked0; rfl
  | cons a rest ih =>
    intro locked0
    cases a with
    | timeout => rfl
    | acquired fd path contents =>
      have hwr : hasDefer (if (edit_lock_contents ourId ourIid maxCount fromPid
          contents enter false).1 ≠ contents
          then [CEvent.writeSwap (edit_lock_contents ourId ourIid maxCount fromPid
            contents enter false).1, CEvent.renameSwap] else []) = false :=
        hasDefer_ite_false rfl rfl
      have hsl : hasDefer (if enter && decide (0 < lockDelay)
          then [CEvent.sleepLockDelay] else []) = false :=
        hasDefer_ite_false rfl rfl
      rw [updateLockFile]
      by_cases h1 : inodeMatch fd path = true
      · rw [if_pos h1]
        by_cases h2 : (edit_lock_contents ourId ourIid maxCount fromPid
            contents enter false).1 ≠ []
        · rw [if_pos h2]
          by_cases h3 : (enter == (edit_lock_contents ourId ourIid maxCount fromPid
              contents enter false).2.2.2) = true
          · rw [if_pos h3]
            exact hasDefer_cons_false rfl
              (hasDefer_append_false (hasDefer_append_false hwr rfl) hsl)
          · rw [if_neg h3]
            exact hasDefer_cons_false rfl
              (hasDefer_append_false (hasDefer_append_false hwr rfl)
                (ih (edit_lock_contents ourId ourIid maxCount fromPid
                  contents enter false).2.2.2))
        · rw [if_neg h2]
          by_cases h4 : (enter == false) = true
          · rw [if_pos h4]
            rfl
          · rw [if_neg h4]
            exact hasDefer_cons_false rfl (hasDefer_cons_false rfl
              (hasDefer_cons_false rfl (hasDefer_cons_false rfl (ih false))))
      · rw [if_neg h1]
        exact hasDefer_cons_false rfl (hasDefer_cons_false rfl
          (hasDefer_cons_false rfl (ih locked0)))

/-- C9 amended: no ExecutionCLock ledger rewrite runs inside a SignalDefer
region (execlock.py never uses signals.DeferSignals; the rewrite is instead
protected by the exclusive advisory lock and the atomic swap-file rename);
the DeferSignals utility itself records every signal delivered during its
region in arrival order and re-raises exactly those signals, in FIFO order,
when the region exits. -/
theorem clock_rewrite_defer_semantics :
    (∀ (ourId : ProcessID) (ourIid maxCount : Int)
       (fromPid : Int → Option ProcessID) (enter : Bool) (lockDelay : Int)
       (attempts : List CUpdateAttempt) (locked0 : Bool),
      hasDefer (updateLockFile ourId ourIid maxCount fromPid enter lockDelay
        locked0 attempts).2 = false) ∧
    (∀ (ds : DeferSignalsState) (sigs : List Int),
      (deferSignals_exit (sigs.foldl defer_signal ds)).2 = ds.deferred ++ sigs ∧
      (deferSignals_exit (sigs.foldl defer_signal ds)).1.deferred = []) := by
  constructor
  · intro ourId ourIid maxCount fromPid enter lockDelay attempts locked0
    exact updateLockFile_no_defer ourId ourIid maxCount fromPid enter lockDelay
      attempts locked0
  · intro ds sigs
    have hfold : ∀ (sigs : List Int) (ds : DeferSignalsState),
        (sigs.foldl defer_signal ds).deferred = ds.deferred ++ sigs := by
      intro sigs
      induction sigs with
      | nil => intro ds; simp
      | cons s rest ihs =>
        intro ds
        rw [List.foldl_cons, ihs]
        simp [defer_signal]
    have hkills : ∀ l : List Int, deferSignalsKills l = l := by
      intro l
      induction l with
      | nil => rfl
      | cons s rest ihs => rw [deferSignalsKills, ihs]
    refine ⟨?_, rfl⟩
    rw [deferSignals_exit]
    simp only [hkills, hfold]

end PPyUtil
